import Mathlib

/-!
# scull: a sparse in-memory character device

A shallow embedding of `scull.c`: the read, write and seek entry points of the
driver over a chain of pages, each page owning a quantum set of
`SCULL_QSET_LEN` quanta of `SCULL_QUANTUM_LEN` bytes.

* The chain hanging off `scull_dev.datap` is a `List scull_page` (the `next`
  pointers are the list structure, `NULL` is `[]`).
* `kmalloc` is an oracle: its `n`-th call inside one `scull_write` either
  returns `NULL` (`none`) or a block whose contents are whatever the memory
  held before (`some g`, byte `i` of the block being `g i`); `kmalloc` does not
  clear memory.
* `loff_t` is a 64-bit signed integer, `unsigned int` and `int` are 32 bits
  wide; conversions are spelled out with `to_u32`, `to_s32` and `to_s64`.
-/

namespace Scull

/-- One `char` of device storage. -/
abbrev Byte := Fin 256

/-- The macro `SCULL_PAGE_SIZE`. -/
def SCULL_PAGE_SIZE : Nat := 4096

/-- The macro `SCULL_QSET_LEN`. -/
def SCULL_QSET_LEN : Nat := 32

/-- The macro `SCULL_QUANTUM_LEN`, defined as `SCULL_PAGE_SIZE/SCULL_QSET_LEN`. -/
def SCULL_QUANTUM_LEN : Nat := SCULL_PAGE_SIZE / SCULL_QSET_LEN

/-- Linux errno `ENOMEM` (errno-base.h). -/
def ENOMEM : Int := 12

/-- Linux errno `EINVAL` (errno-base.h). -/
def EINVAL : Int := 22

/-- Conversion of an integer value to `unsigned int` (32 bits). -/
def to_u32 (x : Int) : Nat := (x % 4294967296).toNat

/-- Conversion of an integer value to `int` (32 bits, two's complement). -/
def to_s32 (x : Int) : Int := (x + 2147483648) % 4294967296 - 2147483648

/-- Conversion of an integer value to `loff_t` (64 bits, two's complement). -/
def to_s64 (x : Int) : Int :=
  (x + 9223372036854775808) % 18446744073709551616 - 9223372036854775808

/-- The node `struct scull_page`: its quantum set; the `next` pointer is the tail
of the list the page sits in. -/
structure scull_page where
  qsetpp : List (List Byte)
deriving DecidableEq

/-- The oracle for `kmalloc`: call number `n` returns `NULL` or a block with
uninitialised contents. -/
abbrev Kmalloc := Nat → Option (Nat → Byte)

/-- The `unsigned int pagenum = *ppos / SCULL_PAGE_SIZE` of read and write. -/
def pagenum_of (ppos : Int) : Nat := to_u32 (ppos.tdiv SCULL_PAGE_SIZE)

/-- The `unsigned int qsetnum = (*ppos % SCULL_PAGE_SIZE) / SCULL_QUANTUM_LEN`. -/
def qsetnum_of (ppos : Int) : Nat :=
  to_u32 ((ppos.tmod SCULL_PAGE_SIZE).tdiv SCULL_QUANTUM_LEN)

/-- The `unsigned int qidx = (*ppos % SCULL_PAGE_SIZE) % SCULL_QUANTUM_LEN`. -/
def qidx_of (ppos : Int) : Nat :=
  to_u32 ((ppos.tmod SCULL_PAGE_SIZE).tmod SCULL_QUANTUM_LEN)

/-! ## scull_read -/

/-- What `scull_read` hands back: the return value, the updated `*ppos` and the
bytes copied to the user buffer, in order. -/
structure ReadResult where
  ret : Int
  ppos : Int
  buf : List Byte
deriving DecidableEq

/-- The page walk of `scull_read` (lines 216-220):
`while ( i < pagenum && currpagep != NULL) currpagep = currpagep->next;`
The body never changes `i`. The result is the chain from `currpagep` on. -/
def read_walk (i pagenum : Nat) : List scull_page → List scull_page
  | [] => []
  | p :: next => if i < pagenum then read_walk i pagenum next else p :: next

/-- The copy loop of `scull_read` (lines 234-240):
`while( rem && *charp != 0) { copy_to_user( buf++, charp++, 1); rem--; bytes_read++; }`
over the quantum `q`, with `charp = &q[idx]`. -/
def read_loop (q : List Byte) : Nat → Nat → List Byte
  | 0, _ => []
  | rem + 1, idx =>
    if q.getD idx 0 ≠ 0 then q.getD idx 0 :: read_loop q rem (idx + 1) else []

/-- The function `scull_read` (lines 199-249) on the chain `datap`. -/
def scull_read (datap : List scull_page) (count : Nat) (ppos : Int) : ReadResult :=
  let pagenum := pagenum_of ppos
  let qsetnum := qsetnum_of ppos
  let qidx := qidx_of ppos
  match read_walk 0 pagenum datap with
  | [] => ⟨0, ppos, []⟩
  | currpagep :: _ =>
    let room := to_u32 ((SCULL_QUANTUM_LEN : Int) - qidx)
    let rem := if room < count then room else count
    let out := read_loop (currpagep.qsetpp.getD qsetnum []) rem qidx
    ⟨out.length, to_s64 (ppos + out.length), out⟩

/-! ## scull_write -/

/-- The contents of a freshly allocated quantum: `SCULL_QUANTUM_LEN` bytes of
whatever the block held. -/
def quantum_of (g : Nat → Byte) : List Byte := (List.range SCULL_QUANTUM_LEN).map g

/-- The quanta loop `for ( j = 0; j < SCULL_QSET_LEN; j++) qsetpp[j] = kmalloc(...)`
(lines 299-302 and 382-385); `c` is the number of the `kmalloc` call for quantum 0.
On failure the index `j` of the quantum that could not be allocated. -/
def alloc_quanta (km : Kmalloc) (c : Nat) :
    Nat → Nat → List (List Byte) → Except Nat (List (List Byte))
  | 0, _, qs => .ok qs
  | todo + 1, j, qs =>
    match km (c + j) with
    | none => .error j
    | some g => alloc_quanta km c todo (j + 1) (qs ++ [quantum_of g])

/-- The allocation that failed while a page was being constructed: the page
structure, the quantum set, or quantum `j`. -/
inductive AllocFail where
  | page
  | qset
  | quantum (j : Nat)
deriving DecidableEq

/-- The allocation sequence of one page (lines 269-302 and 352-385): first the
page structure (call `c`), then the quantum set (call `c + 1`), then the quanta
(calls `c + 2` onwards). -/
def new_page (km : Kmalloc) (c : Nat) : Except AllocFail scull_page :=
  match km c with
  | none => .error .page
  | some _ =>
    match km (c + 1) with
    | none => .error .qset
    | some _ =>
      match alloc_quanta km (c + 2) SCULL_QSET_LEN 0 [] with
      | .error j => .error (.quantum j)
      | .ok qs => .ok ⟨qs⟩

/-- How the undo loop of a failed quantum allocation ends. -/
inductive RollbackEnd where
  | exited (freed : List Nat)
  | out_of_bounds (freed : List Nat) (j : Nat)
  | running (freed : List Nat)
deriving DecidableEq

/-- The undo loop `for( j = j - 1; j >= 0; j--) kfree( qsetpp[j]);` (lines 307-310
and 390-393) after its initialisation, with `j` an `unsigned int`. `freed` lists
the quantum indices freed so far. Indexing the quantum set at or beyond
`SCULL_QSET_LEN` leaves the array. -/
def rollback_loop : Nat → Nat → List Nat → RollbackEnd
  | 0, _, freed => .running freed
  | fuel + 1, j, freed =>
    if 0 ≤ j then
      if j < SCULL_QSET_LEN then
        rollback_loop fuel (to_u32 ((j : Int) - 1)) (freed ++ [j])
      else .out_of_bounds freed j
    else .exited freed

/-- The undo loop entered when quantum `j` could not be allocated. -/
def rollback (j : Nat) : RollbackEnd :=
  rollback_loop (SCULL_QSET_LEN + 1) (to_u32 ((j : Int) - 1)) []

/-- How the page loop of `scull_write` ends. -/
inductive LoopEnd where
  | done (prev curr : List scull_page)
  | enomem (chain : List scull_page)
  | quantum_fail (j : Nat) (chain : List scull_page)
  | null_deref
  | out_of_fuel
deriving DecidableEq

/-- The page loop `while ( i < pagenum)` of `scull_write` (lines 346-424).
`prev` is the chain from the head up to and including `prevpagep` (`[]` when
`prevpagep` is `NULL`), `curr` the chain from `currpagep` on (`[]` when
`currpagep` is `NULL`), `c` the number of `kmalloc` calls made so far; the
construction of one page makes `2 + SCULL_QSET_LEN = 34` calls. -/
def write_loop (km : Kmalloc) (pagenum : Nat) :
    Nat → Nat → Nat → List scull_page → List scull_page → LoopEnd
  | 0, _, _, _, _ => .out_of_fuel
  | fuel + 1, i, c, prev, curr =>
    if i < pagenum then
      match curr with
      | [] =>
        match new_page km c with
        | .error .page => .enomem prev
        | .error .qset => .enomem prev
        | .error (.quantum j) => .quantum_fail j prev
        | .ok p =>
          match prev with
          | [] => .null_deref
          | _ :: _ => write_loop km pagenum fuel (i + 1) (c + 34) prev [p]
      | p :: next =>
        match next with
        | [] => write_loop km pagenum fuel i c (prev ++ [p]) []
        | _ :: _ => write_loop km pagenum fuel (i + 1) c (prev ++ [p]) next
    else .done prev curr

/-- The effect of `copy_from_user( &q[qidx], src, n)` on the quantum `q`, with
`src` the `n` bytes copied. -/
def store_bytes (q : List Byte) (qidx : Nat) (src : List Byte) : List Byte :=
  q.take qidx ++ src ++ q.drop (qidx + src.length)

/-- The effect of `copy_from_user( &currpagep->qsetpp[qsetnum][qidx], src, n)`
on the page. -/
def copy_from_user (p : scull_page) (qsetnum qidx : Nat) (src : List Byte) : scull_page :=
  ⟨p.qsetpp.set qsetnum (store_bytes (p.qsetpp.getD qsetnum []) qidx src)⟩

/-- How a call of `scull_write` ends.

* `returned ret ppos datap`: it returns `ret` with `*ppos = ppos` and the chain
  `datap` hanging off the device.
* `returned_stale ret ppos`: it returns `ret`, and `scull_devp->datap` still
  holds the address of a page that was passed to `kfree`.
* `no_return r`: the undo loop of a failed quantum allocation ended as `r`
  without reaching the `return` statement.
* `null_deref`: a `NULL` page pointer is dereferenced.
* `out_of_fuel`: the page loop did not finish within its bound. -/
inductive WriteResult where
  | returned (ret : Int) (ppos : Int) (datap : List scull_page)
  | returned_stale (ret : Int) (ppos : Int)
  | no_return (r : RollbackEnd)
  | null_deref
  | out_of_fuel
deriving DecidableEq

/-- Lines 324-450 of `scull_write`: the page loop and the copy, entered with the
chain `datap` (page 0 present) after `c` calls of `kmalloc`. -/
def write_from_head (km : Kmalloc) (datap : List scull_page) (c : Nat)
    (buf : List Byte) (ppos : Int) : WriteResult :=
  let pagenum := pagenum_of ppos
  let qsetnum := qsetnum_of ppos
  let qidx := qidx_of ppos
  let count := buf.length
  match write_loop km pagenum (2 * pagenum + 1) 0 c [] datap with
  | .out_of_fuel => .out_of_fuel
  | .null_deref => .null_deref
  | .enomem chain => .returned (-ENOMEM) ppos chain
  | .quantum_fail j chain =>
    match rollback j with
    | .exited _ => .returned (-ENOMEM) ppos chain
    | r => .no_return r
  | .done prev curr =>
    match curr with
    | [] => .null_deref
    | currpagep :: next =>
      let rem := to_u32 ((SCULL_QUANTUM_LEN : Int) - qidx)
      if rem < count then
        .returned rem (to_s64 (ppos + rem))
          (prev ++ copy_from_user currpagep qsetnum qidx (buf.take rem) :: next)
      else
        .returned count (to_s64 (ppos + count))
          (prev ++ copy_from_user currpagep qsetnum qidx (buf.take count) :: next)

/-- The function `scull_write` (lines 252-457) on the chain `datap`; the user
buffer `buf` holds the `count = buf.length` bytes to write. -/
def scull_write (km : Kmalloc) (datap : List scull_page) (buf : List Byte)
    (ppos : Int) : WriteResult :=
  match datap with
  | [] =>
    match new_page km 0 with
    | .error .page => .returned (-ENOMEM) ppos []
    | .error .qset => .returned_stale (-ENOMEM) ppos
    | .error (.quantum j) =>
      match rollback j with
      | .exited _ => .returned_stale (-ENOMEM) ppos
      | r => .no_return r
    | .ok p => write_from_head km [p] 34 buf ppos
  | _ :: _ => write_from_head km datap 0 buf ppos

/-! ## scull_llseek -/

/-- What `scull_llseek` hands back: the return value and `filep->f_pos`. -/
structure SeekResult where
  ret : Int
  f_pos : Int
deriving DecidableEq

/-- The function `scull_llseek` (lines 461-498): `whence` 0 is `SEEK_SET`, 1 is
`SEEK_CUR`, 2 is `SEEK_END`; `newpos` is an `int`. -/
def scull_llseek (f_pos : Int) (off : Int) (whence : Int) : SeekResult :=
  let commit (newpos : Int) : SeekResult :=
    if newpos < 0 then ⟨-EINVAL, f_pos⟩ else ⟨newpos, newpos⟩
  if whence = 0 then commit (to_s32 off)
  else if whence = 1 then commit (to_s32 (to_s64 (f_pos + off)))
  else if whence = 2 then ⟨-EINVAL, f_pos⟩
  else ⟨-EINVAL, f_pos⟩

/-- A `kmalloc` that never fails and hands out blocks filled with the byte `b`. -/
def kmalloc_fill (b : Byte) : Kmalloc := fun _ => some (fun _ => b)

/-- A `kmalloc` whose call number `f` returns `NULL`, every other call handing
out a block filled with the byte `b`. -/
def kmalloc_fail_at (f : Nat) (b : Byte) : Kmalloc :=
  fun n => if n = f then none else some (fun _ => b)

/-- A page whose quanta are all zero bytes. -/
def zero_page : scull_page :=
  ⟨List.replicate SCULL_QSET_LEN (List.replicate SCULL_QUANTUM_LEN 0)⟩

/-- A page whose first byte is the letter A (65) and whose other bytes are zero. -/
def page_A : scull_page :=
  ⟨(65 :: List.replicate 127 0) :: List.replicate 31 (List.replicate SCULL_QUANTUM_LEN 0)⟩

/-! ## Auxiliary definitions for the statements -/

/-- The contents of the block that call `n` of `kmalloc` returns (zero bytes when
the call fails). -/
def block (km : Kmalloc) (n : Nat) : Nat → Byte := (km n).getD (fun _ => 0)

/-- The page that `new_page km c` builds when its 34 allocations succeed. -/
def fresh_page (km : Kmalloc) (c : Nat) : scull_page :=
  ⟨(List.range SCULL_QSET_LEN).map (fun j => quantum_of (block km (c + 2 + j)))⟩

/-- The outcome of `k` page constructions in a row, the first one starting at
call `c`: the pages built, and the failure that stopped the row, if any. -/
def create_pages (km : Kmalloc) : Nat → Nat → List scull_page × Option AllocFail
  | 0, _ => ([], none)
  | k + 1, c =>
    match new_page km c with
    | .ok p => (p :: (create_pages km k (c + 34)).1, (create_pages km k (c + 34)).2)
    | .error e => ([], some e)

/-- How the page loop ends on the chain `L` when the constructions it makes end
as `r`. -/
def loop_end_of (L : List scull_page) (pagenum : Nat)
    (r : List scull_page × Option AllocFail) : LoopEnd :=
  match r.2 with
  | none => .done ((L ++ r.1).take pagenum) ((L ++ r.1).drop pagenum)
  | some .page => .enomem (L ++ r.1)
  | some .qset => .enomem (L ++ r.1)
  | some (.quantum j) => .quantum_fail j (L ++ r.1)

/-- The chain `datap` extended by fully built pages up to page index `pagenum`. -/
def grown (km : Kmalloc) (datap : List scull_page) (pagenum : Nat) : List scull_page :=
  datap ++ (List.range (pagenum + 1 - datap.length)).map (fun t => fresh_page km (34 * t))

/-- Every quantum set of the chain has `SCULL_QSET_LEN` quanta of
`SCULL_QUANTUM_LEN` bytes. -/
def well_formed (datap : List scull_page) : Prop :=
  ∀ p ∈ datap, p.qsetpp.length = SCULL_QSET_LEN ∧ ∀ q ∈ p.qsetpp, q.length = SCULL_QUANTUM_LEN

/-! ## scull_exit -/

/-- A block handed to `kfree` by `scull_exit`: quantum `j` of the page with index
`page`, the quantum set of that page, or the page structure itself. -/
inductive Freed where
  | quantum (page j : Nat)
  | qset (page : Nat)
  | page (page : Nat)
deriving DecidableEq

/-- Whether the block is a quantum. -/
def Freed.is_quantum : Freed → Bool
  | .quantum _ _ => true
  | _ => false

/-- Whether the block is a quantum set. -/
def Freed.is_qset : Freed → Bool
  | .qset _ => true
  | _ => false

/-- Whether the block is a page structure. -/
def Freed.is_page : Freed → Bool
  | .page _ => true
  | _ => false

/-- The body of the teardown loop for the page with index `idx` (lines 145-152):
`for( j = 0; j < SCULL_QSET_LEN; j++) kfree( currpagep->qsetpp[j]);` then
`kfree( currpagep->qsetpp);` then `kfree( currpagep);`. -/
def exit_page (idx : Nat) : List Freed :=
  (List.range SCULL_QSET_LEN).map (Freed.quantum idx) ++ [Freed.qset idx, Freed.page idx]

/-- The teardown loop `while (currpagep != NULL)` of `scull_exit` (lines 141-155)
from the page with index `idx` on: `nextpagep` is saved, the page is released,
and the walk goes on at `nextpagep`. The result lists the blocks freed, in order. -/
def exit_walk : Nat → List scull_page → List Freed
  | _, [] => []
  | idx, _ :: nextpagep => exit_page idx ++ exit_walk (idx + 1) nextpagep

/-- The frees that `scull_exit` (lines 128-168) makes for one device whose chain is
`datap`. -/
def scull_exit (datap : List scull_page) : List Freed := exit_walk 0 datap


/-! ## Stored bytes -/

/-- The byte stored at index `k` of quantum `s` of the page with index `pg`, when
there is one. -/
def byte_at (datap : List scull_page) (pg s k : Nat) : Option Byte :=
  (datap[pg]?).bind (fun p => (p.qsetpp[s]?).bind (fun q => q[k]?))

/-- The byte stored at the coordinates of the offset `off`: page `off / 4096`,
quantum `(off mod 4096) / 128`, index `off mod 128`. -/
def byte_at_offset (datap : List scull_page) (off : Nat) : Option Byte :=
  byte_at datap (off / 4096) (off % 4096 / 128) (off % 128)


/-- The page has a quantum set of `SCULL_QSET_LEN` quanta of `SCULL_QUANTUM_LEN`
bytes each. -/
def page_shape (p : scull_page) : Prop :=
  p.qsetpp.length = SCULL_QSET_LEN ∧ ∀ q ∈ p.qsetpp, q.length = SCULL_QUANTUM_LEN


/-! ## Reissuing short writes -/

/-- The caller's side of a short write (spec 4.4): call `scull_write` with the
bytes not yet written at the offset the previous call left, until a call has
taken the last byte; call number `i` runs against the allocator `kms i`. The
result lists the return values of the calls, the final offset and the final
chain; `none` when a call fails or `fuel` calls were not enough. -/
def reissue (kms : Nat → Kmalloc) :
    Nat → Nat → List scull_page → List Byte → Int → Option (List Int × Int × List scull_page)
  | 0, _, _, _, _ => none
  | fuel + 1, i, datap, buf, ppos =>
    match scull_write (kms i) datap buf ppos with
    | .returned ret ppos1 datap1 =>
      if ret < 0 then none
      else if buf.drop ret.toNat = [] then some ([ret], ppos1, datap1)
      else
        (reissue kms fuel (i + 1) datap1 (buf.drop ret.toNat) ppos1).map
          (fun r => (ret :: r.1, r.2.1, r.2.2))
    | _ => none


/-! ## Traces: the accesses an operation makes, in program order -/

/-- One access of an entry point to the device: the offset cursor (`*ppos`,
`filep->f_pos`), the head pointer `scull_devp->datap`, the pages (a field of a page
structure, an entry of a quantum set, bytes of a quantum), the allocator, the
guard `scull_devp->mx`, and the `return` statement. -/
inductive Event where
  | load_ppos
  | store_ppos
  | load_datap
  | store_datap
  | load_page
  | store_page
  | kmalloc
  | kfree
  | mutex_lock
  | mutex_unlock
  | ret
deriving DecidableEq

/-- The guard flag (held or free) after the events `t`, starting from `held`. -/
def guard_run : Bool → List Event → Bool
  | held, [] => held
  | held, e :: t =>
    guard_run (match e with
      | .mutex_lock => true
      | .mutex_unlock => false
      | _ => held) t

/-- The events `es`, `k` times over. -/
def repeat_events : Nat → List Event → List Event
  | 0, _ => []
  | k + 1, es => es ++ repeat_events k es

/-- The number of iterations of the page walk of `scull_read` (lines 217-220). -/
def read_walk_steps (i pagenum : Nat) : List scull_page → Nat
  | [] => 0
  | _ :: next => if i < pagenum then read_walk_steps i pagenum next + 1 else 0

/-- The accesses of the copy loop of `scull_read` (lines 234-240): the test reads
`*charp`, the body reads it again for `copy_to_user`. -/
def read_loop_trace (q : List Byte) : Nat → Nat → List Event
  | 0, _ => []
  | rem + 1, idx =>
    if q.getD idx 0 ≠ 0 then
      [Event.load_page, Event.load_page] ++ read_loop_trace q rem (idx + 1)
    else [Event.load_page]

/-- The accesses of `scull_read` (lines 199-249), in program order. -/
def scull_read_trace (datap : List scull_page) (count : Nat) (ppos : Int) : List Event :=
  let pagenum := pagenum_of ppos
  let qsetnum := qsetnum_of ppos
  let qidx := qidx_of ppos
  -- lines 202-204: the three coordinates are computed from `*ppos`
  [Event.load_ppos, Event.load_ppos, Event.load_ppos]
  -- line 211: `currpagep = scull_devp->datap;`
  ++ [Event.load_datap]
  -- line 214: `mutex_lock( &scull_devp->mx);`
  ++ [Event.mutex_lock]
  -- line 219: `currpagep = currpagep->next;`, once per iteration
  ++ repeat_events (read_walk_steps 0 pagenum datap) [Event.load_page]
  ++ match read_walk 0 pagenum datap with
    -- lines 225-226
    | [] => [Event.mutex_unlock, Event.ret]
    | currpagep :: _ =>
      let room := to_u32 ((SCULL_QUANTUM_LEN : Int) - qidx)
      let rem := if room < count then room else count
      -- line 231: `charp = &currpagep->qsetpp[qsetnum][qidx];`
      [Event.load_page, Event.load_page]
      ++ read_loop_trace (currpagep.qsetpp.getD qsetnum []) rem qidx
      -- line 243: `*ppos += bytes_read;`
      ++ [Event.load_ppos, Event.store_ppos]
      -- lines 246-248
      ++ [Event.mutex_unlock, Event.ret]

/-- The accesses of `scull_llseek` (lines 461-498), in program order. -/
def scull_llseek_trace (f_pos : Int) (off : Int) (whence : Int) : List Event :=
  let commit (newpos : Int) : List Event :=
    -- line 485
    if newpos < 0 then [Event.ret]
    -- lines 489-497: lock, `filep->f_pos = newpos;`, unlock, `return filep->f_pos;`
    else [Event.mutex_lock, Event.store_ppos, Event.mutex_unlock, Event.load_ppos, Event.ret]
  if whence = 0 then commit (to_s32 off)
  -- line 473: `newpos = filep->f_pos + off;`
  else if whence = 1 then [Event.load_ppos] ++ commit (to_s32 (to_s64 (f_pos + off)))
  else if whence = 2 then [Event.ret]
  else [Event.ret]

/-- The accesses of the undo loop (lines 307-310 and 390-393) that ended as `r`,
and of what follows it; `via` is how the page is reached (`scull_devp->datap` for
the head page, the local `currpagep` otherwise). -/
def rollback_trace (via : List Event) (r : RollbackEnd) : List Event :=
  match r with
  | .exited freed =>
    repeat_events freed.length (via ++ [Event.load_page, Event.load_page, Event.kfree])
    -- lines 312-314 and 395-397: the quantum set and the page are freed
    ++ via ++ [Event.load_page, Event.kfree] ++ via ++ [Event.kfree]
  | .out_of_bounds freed _ =>
    repeat_events freed.length (via ++ [Event.load_page, Event.load_page, Event.kfree])
    ++ via ++ [Event.load_page]
  | .running freed =>
    repeat_events freed.length (via ++ [Event.load_page, Event.load_page, Event.kfree])

/-- The accesses of the construction of one page (lines 269-321 and 352-404), the
unlock and the `return` of a failure excluded. `link` is the store of the new
pointer (`scull_devp->datap` for the head page, nothing for the local
`currpagep`), `via` is how the page is reached afterwards. -/
def page_trace (via link : List Event) (km : Kmalloc) (c : Nat) : List Event :=
  let started : List Event :=
    -- lines 281-285 and 364-368: `next = NULL`, the quantum set and its test
    via ++ [Event.store_page] ++ [Event.kmalloc] ++ via ++ [Event.store_page]
    ++ via ++ [Event.load_page]
  let iteration : List Event :=
    -- lines 301-302 and 384-385: one quantum and its test
    [Event.kmalloc] ++ via ++ [Event.load_page, Event.store_page]
    ++ via ++ [Event.load_page, Event.load_page]
  -- lines 269-270 and 352-353: the page structure and its test
  [Event.kmalloc] ++ link ++ via
  ++ match new_page km c with
    | .error .page => []
    -- lines 290 and 373: the page is freed
    | .error .qset => started ++ via ++ [Event.kfree]
    | .error (.quantum j) =>
      started ++ repeat_events (j + 1) iteration ++ rollback_trace via (rollback j)
    | .ok _ => started ++ repeat_events SCULL_QSET_LEN iteration

/-- The unlock and `return -ENOMEM` that follow a failed page construction, when
they are reached. -/
def fail_exit (e : AllocFail) : List Event :=
  match e with
  | .page => [Event.mutex_unlock, Event.ret]
  | .qset => [Event.mutex_unlock, Event.ret]
  | .quantum j =>
    match rollback j with
    | .exited _ => [Event.mutex_unlock, Event.ret]
    | _ => []

/-- The accesses of the page loop of `scull_write` (lines 346-424), in program
order, with the unlock and `return` of a failure inside the loop. -/
def write_loop_trace (km : Kmalloc) (pagenum : Nat) :
    Nat → Nat → Nat → List scull_page → List scull_page → List Event
  | 0, _, _, _, _ => []
  | fuel + 1, i, c, prev, curr =>
    if i < pagenum then
      match curr with
      | [] =>
        page_trace [] [] km c
        ++ match new_page km c with
          | .error e => fail_exit e
          | .ok p =>
            match prev with
            | [] => []
            -- line 406: `prevpagep->next = currpagep;`
            | _ :: _ =>
              [Event.store_page] ++ write_loop_trace km pagenum fuel (i + 1) (c + 34) prev [p]
      | p :: next =>
        -- line 413: `currpagep = currpagep->next;`
        [Event.load_page]
        ++ match next with
          | [] => write_loop_trace km pagenum fuel i c (prev ++ [p]) []
          | _ :: _ => write_loop_trace km pagenum fuel (i + 1) c (prev ++ [p]) next
    else []

/-- The accesses of lines 324-450 of `scull_write`, entered with the chain `datap`
after `c` calls of `kmalloc`. -/
def write_from_head_trace (km : Kmalloc) (datap : List scull_page) (c : Nat)
    (ppos : Int) : List Event :=
  let pagenum := pagenum_of ppos
  -- line 324: `currpagep = scull_devp->datap;`
  [Event.load_datap]
  ++ write_loop_trace km pagenum (2 * pagenum + 1) 0 c [] datap
  ++ match write_loop km pagenum (2 * pagenum + 1) 0 c [] datap with
    | .done _ (_ :: _) =>
      -- lines 433-449: the copy, `*ppos += ...`, unlock, return
      [Event.load_page, Event.load_page, Event.store_page, Event.load_ppos, Event.store_ppos,
        Event.mutex_unlock, Event.ret]
    | _ => []

/-- The accesses of `scull_write` (lines 252-457), in program order. -/
def scull_write_trace (km : Kmalloc) (datap : List scull_page) (ppos : Int) : List Event :=
  -- lines 255-257, 264 and 267
  [Event.load_ppos, Event.load_ppos, Event.load_ppos, Event.mutex_lock, Event.load_datap]
  ++ match datap with
    | [] =>
      page_trace [Event.load_datap] [Event.store_datap] km 0
      ++ match new_page km 0 with
        | .error e => fail_exit e
        | .ok p => write_from_head_trace km [p] 34 ppos
    | _ :: _ => write_from_head_trace km datap 0 ppos


/-- An event that is neither an operation on the guard nor the `return`. -/
def Event.is_quiet : Event → Bool
  | .mutex_lock => false
  | .mutex_unlock => false
  | .ret => false
  | _ => true

/-- A stretch of a trace without operation on the guard and without `return`. -/
def quiet (t : List Event) : Prop := ∀ e ∈ t, e.is_quiet = true

/-- The guard discipline of a trace: the guard is acquired at most once, released
as often as it is acquired, and free at the end when it was free at the start. -/
def guard_ok (t : List Event) : Prop :=
  t.count Event.mutex_lock ≤ 1 ∧
  t.count Event.mutex_unlock = t.count Event.mutex_lock ∧
  guard_run false t = false

theorem to_s64_of_range (x : Int) (h0 : -9223372036854775808 ≤ x)
    (h1 : x < 9223372036854775808) : to_s64 x = x := by
  unfold to_s64
  omega

theorem pagenum_of_nonneg (O : Int) (h : 0 ≤ O) :
    pagenum_of O = (O.toNat / 4096) % 4294967296 := by
  unfold pagenum_of to_u32 SCULL_PAGE_SIZE
  rw [Int.tdiv_eq_ediv h (by decide)]
  simp only [Nat.cast_ofNat]
  omega

theorem qsetnum_of_nonneg (O : Int) (h : 0 ≤ O) :
    qsetnum_of O = O.toNat % 4096 / 128 := by
  unfold qsetnum_of to_u32 SCULL_QUANTUM_LEN SCULL_PAGE_SIZE SCULL_QSET_LEN
  rw [Int.tmod_eq_emod h (by decide)]
  rw [Int.tdiv_eq_ediv (by simp only [Nat.cast_ofNat]; omega) (by decide)]
  simp only [Nat.cast_ofNat, Nat.reduceDiv]
  omega

theorem qidx_of_nonneg (O : Int) (h : 0 ≤ O) :
    qidx_of O = O.toNat % 4096 % 128 := by
  unfold qidx_of to_u32 SCULL_QUANTUM_LEN SCULL_PAGE_SIZE SCULL_QSET_LEN
  rw [Int.tmod_eq_emod h (by decide)]
  rw [Int.tmod_eq_emod (by simp only [Nat.cast_ofNat]; omega) (by decide)]
  simp only [Nat.cast_ofNat, Nat.reduceDiv]
  omega

theorem room_of_nonneg (O : Int) (h : 0 ≤ O) :
    to_u32 ((SCULL_QUANTUM_LEN : Int) - qidx_of O) = 128 - O.toNat % 4096 % 128 := by
  rw [qidx_of_nonneg O h]
  unfold to_u32 SCULL_QUANTUM_LEN SCULL_PAGE_SIZE SCULL_QSET_LEN
  simp only [Nat.reduceDiv, Nat.cast_ofNat]
  omega

/-! ## Page construction -/

theorem quantum_of_length (g : Nat → Byte) : (quantum_of g).length = SCULL_QUANTUM_LEN := by
  simp [quantum_of]

theorem alloc_quanta_ok (km : Kmalloc) (c : Nat) :
    ∀ (todo j : Nat) (qs : List (List Byte)),
      (∀ t, j ≤ t → t < j + todo → (km (c + t)).isSome) →
      alloc_quanta km c todo j qs =
        .ok (qs ++ (List.range' j todo).map (fun t => quantum_of (block km (c + t)))) := by
  intro todo
  induction todo with
  | zero => intro j qs _; simp [alloc_quanta]
  | succ n ih =>
    intro j qs h
    have hj := h j (Nat.le_refl j) (by omega)
    obtain ⟨g, hg⟩ := Option.isSome_iff_exists.mp hj
    rw [alloc_quanta]
    simp only [hg]
    rw [ih (j + 1) _ (fun t h1 h2 => h t (by omega) (by omega))]
    simp [List.range'_succ, block, hg]

theorem new_page_ok (km : Kmalloc) (c : Nat)
    (h : ∀ n, c ≤ n → n < c + 34 → (km n).isSome) :
    new_page km c = .ok (fresh_page km c) := by
  obtain ⟨g0, h0⟩ := Option.isSome_iff_exists.mp (h c (Nat.le_refl c) (by omega))
  obtain ⟨g1, h1⟩ := Option.isSome_iff_exists.mp (h (c + 1) (by omega) (by omega))
  unfold new_page
  simp only [h0, h1]
  rw [alloc_quanta_ok km (c + 2) SCULL_QSET_LEN 0 []
    (fun t _ h2 => h (c + 2 + t) (by omega) (by unfold SCULL_QSET_LEN at h2; omega))]
  simp [fresh_page, List.range_eq_range']

theorem new_page_page_fail (km : Kmalloc) (c : Nat) (h : km c = none) :
    new_page km c = .error .page := by
  unfold new_page
  simp [h]

theorem new_page_qset_fail (km : Kmalloc) (c : Nat) (h0 : (km c).isSome)
    (h : km (c + 1) = none) : new_page km c = .error .qset := by
  obtain ⟨g0, h0⟩ := Option.isSome_iff_exists.mp h0
  unfold new_page
  simp [h0, h]

theorem fresh_page_shape (km : Kmalloc) (c : Nat) :
    (fresh_page km c).qsetpp.length = SCULL_QSET_LEN ∧
    ∀ q ∈ (fresh_page km c).qsetpp, q.length = SCULL_QUANTUM_LEN := by
  constructor
  · simp [fresh_page]
  · intro q hq
    simp only [fresh_page, List.mem_map] at hq
    obtain ⟨j, _, rfl⟩ := hq
    exact quantum_of_length _

theorem create_pages_ok (km : Kmalloc) (h : ∀ n, (km n).isSome) :
    ∀ (k c : Nat), create_pages km k c =
      ((List.range' 0 k).map (fun t => fresh_page km (c + 34 * t)), none) := by
  intro k
  induction k with
  | zero => intro c; simp [create_pages]
  | succ n ih =>
    intro c
    rw [create_pages, new_page_ok km c (fun m _ _ => h m)]
    simp only [ih (c + 34)]
    rw [List.range'_succ]
    simp only [List.map_cons, Nat.mul_zero, Nat.add_zero, Prod.mk.injEq, List.cons.injEq,
      true_and, and_true]
    rw [← List.map_add_range' 1 0]
    simp only [List.map_map]
    apply List.map_congr_left
    intro t _
    simp only [Function.comp]
    congr 1
    omega

/-! ## The page loop of scull_write -/

theorem loop_end_of_cons (L : List scull_page) (pagenum : Nat) (p : scull_page)
    (r : List scull_page × Option AllocFail) :
    loop_end_of (L ++ [p]) pagenum r = loop_end_of L pagenum (p :: r.1, r.2) := by
  unfold loop_end_of
  simp [List.append_assoc]

theorem write_loop_eq (km : Kmalloc) (pagenum : Nat) :
    ∀ (fuel i c : Nat) (prev curr : List scull_page),
      i ≤ pagenum →
      (curr ≠ [] → i = prev.length) →
      (curr = [] → prev ≠ [] ∧ i + 1 = prev.length ∧ i < pagenum) →
      2 * (pagenum - i) + (if curr = [] then 0 else 1) ≤ fuel →
      write_loop km pagenum fuel i c prev curr =
        loop_end_of (prev ++ curr) pagenum
          (create_pages km (pagenum + 1 - (prev ++ curr).length) c) := by
  intro fuel
  induction fuel with
  | zero =>
    intro i c prev curr _ _ hB hfuel
    by_cases hc : curr = []
    · have := (hB hc).2.2
      simp only [hc, if_true] at hfuel
      omega
    · simp only [hc, if_false] at hfuel
      omega
  | succ n ih =>
    intro i c prev curr hi hA hB hfuel
    rw [write_loop.eq_def]
    simp only
    by_cases hlt : i < pagenum
    · simp only [hlt, if_true]
      cases curr with
      | nil =>
        obtain ⟨hp, hlen, _⟩ := hB rfl
        have hneed : pagenum + 1 - (prev ++ ([] : List scull_page)).length
            = (pagenum - i - 1) + 1 := by
          simp only [List.append_nil]
          omega
        rw [hneed, create_pages]
        cases hnp : new_page km c with
        | error e =>
          cases e <;> simp [loop_end_of]
        | ok p =>
          cases prev with
          | nil => exact absurd rfl hp
          | cons a as =>
            simp only
            rw [ih (i + 1) (c + 34) (a :: as) [p] (by omega)
              (fun _ => by omega) (fun h => absurd h (by simp)) (by simp; omega)]
            rw [loop_end_of_cons]
            have hk : pagenum + 1 - (a :: as ++ [p]).length = pagenum - i - 1 := by
              simp only [List.length_append, List.length_cons, List.length_nil] at hlen ⊢
              omega
            rw [hk]
            simp
      | cons p next =>
        have hlen := hA (by simp)
        cases next with
        | nil =>
          simp only
          rw [ih i c (prev ++ [p]) [] hi (fun h => absurd rfl h)
            (fun _ => ⟨by simp, by simp; omega, hlt⟩) (by simp at hfuel ⊢; omega)]
          simp
        | cons q rest =>
          simp only
          rw [ih (i + 1) c (prev ++ [p]) (q :: rest) (by omega)
            (fun _ => by simp; omega) (fun h => absurd h (by simp))
            (by simp at hfuel ⊢; omega)]
          simp
    · simp only [hlt, if_false]
      have hcurr : curr ≠ [] := fun h => hlt (hB h).2.2
      have hlen := hA hcurr
      have hip : i = pagenum := by omega
      have hcl : 0 < curr.length := List.length_pos.mpr hcurr
      have hneed : pagenum + 1 - (prev ++ curr).length = 0 := by
        simp only [List.length_append]
        omega
      rw [hneed, create_pages]
      simp only [loop_end_of, List.append_nil]
      have hpl : prev.length = pagenum := by omega
      rw [← hpl, List.take_left, List.drop_left]

theorem write_loop_from_head (km : Kmalloc) (pagenum c : Nat) (datap : List scull_page)
    (hd : datap ≠ []) :
    write_loop km pagenum (2 * pagenum + 1) 0 c [] datap =
      loop_end_of datap pagenum (create_pages km (pagenum + 1 - datap.length) c) := by
  have h := write_loop_eq km pagenum (2 * pagenum + 1) 0 c [] datap (Nat.zero_le _)
    (fun _ => rfl) (fun h => absurd h hd) (by simp [hd])
  simpa using h

/-! ## A write whose allocations succeed -/

theorem write_from_head_ok (km : Kmalloc) (hkm : ∀ n, (km n).isSome)
    (datap : List scull_page) (hd : datap ≠ []) (c : Nat) (buf : List Byte) (O : Int)
    (L : List scull_page) (r : Nat)
    (hL : L = datap ++ (List.range' 0 (pagenum_of O + 1 - datap.length)).map
      (fun t => fresh_page km (c + 34 * t)))
    (hr : r = min buf.length (to_u32 ((SCULL_QUANTUM_LEN : Int) - qidx_of O))) :
    write_from_head km datap c buf O =
      .returned r (to_s64 (O + r))
        (L.set (pagenum_of O)
          (copy_from_user (L.getD (pagenum_of O) ⟨[]⟩) (qsetnum_of O) (qidx_of O)
            (buf.take r))) := by
  have hlen : pagenum_of O < L.length := by
    rw [hL]
    simp only [List.length_append, List.length_map, List.length_range']
    omega
  unfold write_from_head
  simp only
  rw [write_loop_from_head km _ c datap hd, create_pages_ok km hkm]
  simp only [loop_end_of]
  rw [← hL, List.drop_eq_getElem_cons hlen]
  simp only
  rw [List.getD_eq_getElem L _ hlen, List.set_eq_take_cons_drop _ hlen]
  by_cases hlt : to_u32 ((SCULL_QUANTUM_LEN : Int) - qidx_of O) < buf.length
  · have : r = to_u32 ((SCULL_QUANTUM_LEN : Int) - qidx_of O) := by omega
    simp only [hlt, if_true, this]
  · have : r = buf.length := by omega
    simp only [hlt, if_false, this]

theorem grown_nil (km : Kmalloc) (n : Nat) :
    grown km [] n = [fresh_page km 0] ++ (List.range' 0 (n + 1 - 1)).map
      (fun t => fresh_page km (34 + 34 * t)) := by
  unfold grown
  simp only [List.length_nil, Nat.sub_zero, List.nil_append, List.range_eq_range',
    Nat.add_sub_cancel]
  rw [List.range'_succ]
  simp only [List.map_cons, Nat.mul_zero, List.singleton_append, List.cons.injEq, true_and]
  rw [← List.map_add_range' 1 0]
  simp only [List.map_map]
  apply List.map_congr_left
  intro t _
  simp only [Function.comp]
  congr 1
  omega

theorem grown_length (km : Kmalloc) (datap : List scull_page) (n : Nat) :
    (grown km datap n).length = max datap.length (n + 1) := by
  unfold grown
  simp only [List.length_append, List.length_map, List.length_range]
  omega

/-- A write whose allocations all succeed returns, and this is what it returns:
the byte count `r`, the advanced offset, and the grown chain with the bytes
copied into the page at index `pagenum`. -/
theorem scull_write_ok (km : Kmalloc) (hkm : ∀ n, (km n).isSome)
    (datap : List scull_page) (buf : List Byte) (O : Int) (r : Nat)
    (hr : r = min buf.length (to_u32 ((SCULL_QUANTUM_LEN : Int) - qidx_of O))) :
    scull_write km datap buf O =
      .returned r (to_s64 (O + r))
        ((grown km datap (pagenum_of O)).set (pagenum_of O)
          (copy_from_user ((grown km datap (pagenum_of O)).getD (pagenum_of O) ⟨[]⟩)
            (qsetnum_of O) (qidx_of O) (buf.take r))) := by
  cases datap with
  | nil =>
    unfold scull_write
    simp only [new_page_ok km 0 (fun m _ _ => hkm m)]
    exact write_from_head_ok km hkm [fresh_page km 0] (by simp) 34 buf O _ r
      (by rw [grown_nil]; simp) hr
  | cons p ps =>
    unfold scull_write
    simp only
    exact write_from_head_ok km hkm (p :: ps) (by simp) 0 buf O _ r
      (by unfold grown; simp [List.range_eq_range']) hr

/-- C2: for every chain, every offset O at least 0 with in-quantum index qidx and
every buffer of count bytes, a write whose allocations all succeed returns
exactly min(count, 128 - qidx) and advances the offset by exactly that amount
(the advanced offset being representable in loff_t). -/
theorem C2_short_write (km : Kmalloc) (hkm : ∀ n, (km n).isSome)
    (datap : List scull_page) (buf : List Byte) (O : Int) (qidx : Nat)
    (h0 : 0 ≤ O) (hq : (qidx : Int) = O % 4096 % 128)
    (hrep : O + min buf.length (128 - qidx) < 9223372036854775808) :
    ∃ d, scull_write km datap buf O =
      .returned (min buf.length (128 - qidx) : Nat)
        (O + (min buf.length (128 - qidx) : Nat)) d := by
  have hroom : to_u32 ((SCULL_QUANTUM_LEN : Int) - qidx_of O) = 128 - qidx := by
    rw [room_of_nonneg O h0]
    omega
  have h := scull_write_ok km hkm datap buf O (min buf.length (128 - qidx)) (by rw [hroom])
  rw [to_s64_of_range _ (by omega) hrep] at h
  exact ⟨_, h⟩

/-- C2, witness: on the empty device a write of 40 bytes at offset 100 (qidx 100)
returns 28 and moves the offset to 128. -/
theorem C2_short_write_witness :
    (0 : Int) ≤ 100 ∧ ((100 : Nat) : Int) = 100 % 4096 % 128 ∧
    ∃ d, scull_write (kmalloc_fill 0) [] (List.replicate 40 7) 100 = .returned 28 128 d :=
  ⟨by decide, by decide,
    C2_short_write (kmalloc_fill 0) (fun _ => rfl) [] (List.replicate 40 7) 100 100
      (by decide) (by decide) (by decide)⟩

/-! ## A write whose allocation fails -/

theorem fresh_pages_succ (km : Kmalloc) (k : Nat) :
    (List.range' 0 (k + 1)).map (fun t => fresh_page km (34 * t)) =
      fresh_page km 0 :: (List.range' 0 k).map (fun t => fresh_page km (34 + 34 * t)) := by
  rw [List.range'_succ]
  simp only [List.map_cons, Nat.mul_zero, List.cons.injEq, true_and]
  rw [← List.map_add_range' 1 0]
  simp only [List.map_map]
  apply List.map_congr_left
  intro t _
  simp only [Function.comp]
  congr 1
  omega

theorem create_pages_fail (km : Kmalloc) (f : Nat) (hs : ∀ m, m < f → (km m).isSome)
    (hf : km f = none) :
    ∀ (k c : Nat), c ≤ f → (f - c) / 34 < k → (f - c) % 34 ≤ 1 →
      ∃ e, (e = AllocFail.page ∨ e = AllocFail.qset) ∧
        create_pages km k c =
          ((List.range' 0 ((f - c) / 34)).map (fun t => fresh_page km (c + 34 * t)),
            some e) := by
  intro k
  induction k with
  | zero => intro c _ h _; omega
  | succ n ih =>
    intro c hc hk hm
    rw [create_pages]
    by_cases hlt : f < c + 34
    · have hq : (f - c) / 34 = 0 := by omega
      rw [hq]
      by_cases hfc : f = c
      · subst hfc
        rw [new_page_page_fail km f hf]
        exact ⟨_, Or.inl rfl, by simp⟩
      · have hfc1 : f = c + 1 := by omega
        subst hfc1
        rw [new_page_qset_fail km c (hs c (by omega)) hf]
        exact ⟨_, Or.inr rfl, by simp⟩
    · rw [new_page_ok km c (fun m _ h2 => hs m (by omega))]
      obtain ⟨e, he, hcp⟩ := ih (c + 34) (by omega) (by omega) (by omega)
      refine ⟨e, he, ?_⟩
      simp only [hcp]
      have hq : (f - c) / 34 = (f - (c + 34)) / 34 + 1 := by omega
      rw [hq, List.range'_succ]
      simp only [List.map_cons, Nat.mul_zero, Nat.add_zero, Prod.mk.injEq, List.cons.injEq,
        true_and, and_true]
      rw [← List.map_add_range' 1 0]
      simp only [List.map_map]
      apply List.map_congr_left
      intro t _
      simp only [Function.comp]
      congr 1
      omega

theorem write_from_head_enomem (km : Kmalloc) (f : Nat)
    (hs : ∀ m, m < f → (km m).isSome) (hf : km f = none)
    (datap : List scull_page) (hd : datap ≠ []) (c : Nat) (buf : List Byte) (O : Int)
    (hc : c ≤ f) (hk : datap.length + (f - c) / 34 ≤ pagenum_of O)
    (hm : (f - c) % 34 ≤ 1) :
    write_from_head km datap c buf O =
      .returned (-ENOMEM) O
        (datap ++ (List.range' 0 ((f - c) / 34)).map (fun t => fresh_page km (c + 34 * t))) := by
  obtain ⟨e, he, hcp⟩ := create_pages_fail km f hs hf
    (pagenum_of O + 1 - datap.length) c hc (by omega) hm
  unfold write_from_head
  simp only
  rw [write_loop_from_head km _ c datap hd, hcp]
  rcases he with rfl | rfl <;> simp [loop_end_of]

/-- A write whose first failing allocation is a page structure, or the quantum
set of a page other than page 0, returns -ENOMEM with the offset unchanged and
the chain extended by the pages built before the failure. -/
theorem scull_write_enomem (km : Kmalloc) (f : Nat)
    (hs : ∀ m, m < f → (km m).isSome) (hf : km f = none)
    (datap : List scull_page) (buf : List Byte) (O : Int)
    (hstep : f % 34 = 0 ∨ (f % 34 = 1 ∧ (datap ≠ [] ∨ 34 ≤ f)))
    (hreach : datap.length + f / 34 ≤ pagenum_of O) :
    scull_write km datap buf O =
      .returned (-ENOMEM) O
        (datap ++ (List.range' 0 (f / 34)).map (fun t => fresh_page km (34 * t))) := by
  cases datap with
  | nil =>
    unfold scull_write
    by_cases hlt : f < 34
    · have hf0 : f = 0 := by
        rcases hstep with h | ⟨h, h2 | h2⟩
        · omega
        · exact absurd rfl h2
        · omega
      subst hf0
      simp [new_page_page_fail km 0 hf]
    · simp only [new_page_ok km 0 (fun m _ h2 => hs m (by omega))]
      have hq : f / 34 = (f - 34) / 34 + 1 := by omega
      rw [write_from_head_enomem km f hs hf [fresh_page km 0] (by simp) 34 buf O (by omega)
        (by simp only [List.length_nil, List.length_singleton] at hreach ⊢; omega) (by omega)]
      rw [hq, fresh_pages_succ]
      simp
  | cons p ps =>
    unfold scull_write
    simp only
    rw [write_from_head_enomem km f hs hf (p :: ps) (by simp) 0 buf O (Nat.zero_le _)
      (by simpa using hreach) (by simp only [Nat.sub_zero]; omega)]
    simp

/-! ## Reads that find no page -/

theorem read_walk_past (n : Nat) (hn : 1 ≤ n) (datap : List scull_page) :
    read_walk 0 n datap = [] := by
  induction datap with
  | nil => rfl
  | cons p ps ih =>
    rw [read_walk]
    simp only [show 0 < n from hn, if_true]
    exact ih

/-- On the empty chain, and for every page number other than 0 on any chain,
`scull_read` returns 0 bytes and leaves the offset alone. -/
theorem scull_read_nothing (datap : List scull_page) (count : Nat) (O : Int)
    (h : datap = [] ∨ 1 ≤ pagenum_of O) : scull_read datap count O = ⟨0, O, []⟩ := by
  unfold scull_read
  rcases h with h | h
  · subst h
    simp [read_walk]
  · simp [read_walk_past _ h]

theorem pagenum_of_lt (O : Int) : pagenum_of O < 4294967296 := by
  unfold pagenum_of to_u32
  omega

/-- While the page index fits the 32-bit page number, a read at an offset whose
page index is at least the number of pages returns 0 bytes and leaves the offset
alone. -/
theorem scull_read_past_chain (datap : List scull_page) (count : Nat) (O : Int)
    (h0 : 0 ≤ O) (hO : O < 17592186044416) (h : (datap.length : Int) ≤ O / 4096) :
    scull_read datap count O = ⟨0, O, []⟩ := by
  apply scull_read_nothing
  rw [pagenum_of_nonneg O h0]
  cases datap with
  | nil => exact Or.inl rfl
  | cons p ps =>
    right
    simp only [List.length_cons, Nat.cast_add, Nat.cast_one] at h
    omega

/-- C6, counterexample: on the empty device a write at offset 4096 whose 35th
allocation (the page structure of page 1) fails returns -ENOMEM, yet the chain
has gone from no page to one page, and a read of 10 bytes at offset 0, in a page
that did not exist before the call, returns 10 bytes. -/
theorem C6_failed_write_keeps_built_page :
    ∃ d, scull_write (kmalloc_fail_at 34 170) [] [65] 4096 = .returned (-ENOMEM) 4096 d ∧
      d.length = 1 ∧ d ≠ [] ∧ scull_read d 10 0 = ⟨10, 10, List.replicate 10 170⟩ :=
  ⟨_, rfl, rfl, by decide, rfl⟩

/-- C6, amended: when the first allocation to fail in a write is call number f,
and that call is for a page structure (f mod 34 = 0) or for the quantum set of a
page other than page 0 (f mod 34 = 1), the write returns -ENOMEM and leaves the
offset unchanged; the pages that were there before stay at the front of the
chain, same order and contents, followed only by the f / 34 fully built pages
that this call created before the failure, and a read at any offset of the page
whose construction failed returns 0 bytes. -/
theorem C6_failed_write_enomem (km : Kmalloc) (f : Nat)
    (hs : ∀ m, m < f → (km m).isSome) (hf : km f = none)
    (datap : List scull_page) (buf : List Byte) (O : Int)
    (hstep : f % 34 = 0 ∨ (f % 34 = 1 ∧ (datap ≠ [] ∨ 34 ≤ f)))
    (hreach : datap.length + f / 34 ≤ pagenum_of O) :
    ∃ news, scull_write km datap buf O = .returned (-ENOMEM) O (datap ++ news) ∧
      news.length = f / 34 ∧ well_formed news ∧
      ∀ (count : Nat) (O' : Int), 0 ≤ O' →
        O' / 4096 = ((datap.length + f / 34 : Nat) : Int) →
        scull_read (datap ++ news) count O' = ⟨0, O', []⟩ := by
  refine ⟨(List.range' 0 (f / 34)).map (fun t => fresh_page km (34 * t)),
    scull_write_enomem km f hs hf datap buf O hstep hreach, by simp, ?_, ?_⟩
  · intro p hp
    simp only [List.mem_map] at hp
    obtain ⟨t, _, rfl⟩ := hp
    exact fresh_page_shape km _
  · intro count O' h0 hpage
    have hlt := pagenum_of_lt O
    have hpn : pagenum_of O' = datap.length + f / 34 := by
      rw [pagenum_of_nonneg O' h0]
      omega
    apply scull_read_nothing
    by_cases hz : datap.length + f / 34 = 0
    · left
      have h1 : datap.length = 0 := by omega
      have h2 : f / 34 = 0 := by omega
      rw [List.length_eq_zero.mp h1, h2]
      rfl
    · right
      omega

/-- C6, witness for the amended claim: a chain of one page, a write at offset 8192,
the quantum set of page 2 (call 35) failing: the write returns -ENOMEM, the
offset stays 8192 and the chain is the old page followed by one built page. -/
theorem C6_failed_write_enomem_witness :
    (35 % 34 = 0 ∨ (35 % 34 = 1 ∧ ([zero_page] ≠ [] ∨ 34 ≤ 35))) ∧
    [zero_page].length + 35 / 34 ≤ pagenum_of 8192 ∧
    ∃ news, scull_write (kmalloc_fail_at 35 0) [zero_page] [65] 8192 =
        .returned (-ENOMEM) 8192 ([zero_page] ++ news) ∧
      news.length = 35 / 34 ∧ well_formed news ∧
      ∀ (count : Nat) (O' : Int), 0 ≤ O' →
        O' / 4096 = (([zero_page].length + 35 / 34 : Nat) : Int) →
        scull_read ([zero_page] ++ news) count O' = ⟨0, O', []⟩ :=
  ⟨by decide, by decide,
    C6_failed_write_enomem (kmalloc_fail_at 35 0) 35
      (fun m hm => by
        have : m ≠ 35 := by omega
        simp [kmalloc_fail_at, this])
      (by simp [kmalloc_fail_at]) [zero_page] [65] 8192 (by decide) (by decide)⟩

/-- With the quantum set of page 0 failing (call 1), the write on the empty device
returns -ENOMEM while the head pointer keeps the address of the freed page. -/
theorem scull_write_head_qset_fail :
    scull_write (kmalloc_fail_at 1 0) [] [65] 0 = .returned_stale (-ENOMEM) 0 := by
  rfl

/-- With quantum 0 of page 0 failing (call 2), the undo loop starts at index
4294967295 and never reaches the return statement. -/
theorem scull_write_head_quantum_fail :
    scull_write (kmalloc_fail_at 2 0) [] [65] 0 =
      .no_return (.out_of_bounds [] 4294967295) := by
  rfl

/-! ## Seek -/

/-- C8, at the failing input: a seek in Absolute mode (whence 0) from offset 100 with
the negative delta -4294967296 does not fail; it returns 0 and sets the offset to
0, because the new position is narrowed to a 32-bit int before the sign test. -/
theorem C8_seek_negative_delta_accepted :
    scull_llseek 100 (-4294967296) 0 = ⟨0, 0⟩ ∧
    scull_llseek 100 (-4294967396) 1 = ⟨0, 0⟩ := by
  decide

/-- C9, at the failing inputs: a seek in Absolute mode to the non-negative position
2147483648 fails with -EINVAL and leaves the offset at 0, and a seek to
4294967301 returns 5 and commits 5, because the new position is held in a
32-bit int. -/
theorem C9_seek_result_narrowed :
    scull_llseek 0 2147483648 0 = ⟨-EINVAL, 0⟩ ∧
    scull_llseek 0 4294967301 0 = ⟨5, 5⟩ := by
  decide

/-- C10, counterexample: the error returned for a seek relative to the end (whence 2)
is not different from the error returned for a negative resulting offset. -/
theorem C10_seek_end_same_error :
    ¬ ((scull_llseek 100 0 2).ret ≠ (scull_llseek 100 (-150) 1).ret) := by
  decide

/-- C10, amended: for every current offset and every delta, a seek relative to
the end (whence 2) fails with -EINVAL, the same error value that a negative
resulting offset gets, and leaves the offset unchanged. -/
theorem C10_seek_end_einval (f_pos off : Int) :
    scull_llseek f_pos off 2 = ⟨-EINVAL, f_pos⟩ ∧
    (scull_llseek f_pos off 2).ret = (scull_llseek 100 (-150) 1).ret := by
  constructor
  · simp [scull_llseek]
  · simp [scull_llseek, to_s32, to_s64, EINVAL]

/-! ## Evaluations of read and write -/

/-- C1, at the failing input: on the empty device, with every allocation
succeeding, writing the byte 65 at offset 4096 returns 1, and reading 1 byte at
offset 4096 right after returns 0 bytes and leaves the offset at 4096. -/
theorem C1_round_trip_lost_at_4096 :
    ∃ d, scull_write (kmalloc_fill 0) [] [65] 4096 = .returned 1 4097 d ∧
      scull_read d 1 4096 = ⟨0, 4096, []⟩ :=
  ⟨_, rfl, rfl⟩

/-- C3, at the failing input: in a chain of two pages whose page 1 starts with the
non-zero byte 65, reading 1 byte at offset 4096 returns 0 bytes, while the same
page read as page 0 gives the byte. -/
theorem C3_read_page_one_empty :
    scull_read [zero_page, page_A] 1 4096 = ⟨0, 4096, []⟩ ∧
    scull_read [page_A] 1 0 = ⟨1, 1, [65]⟩ :=
  ⟨rfl, rfl⟩

/-- C4, at the failing input: on the empty device, when kmalloc hands out blocks
that hold the byte 170, writing the two bytes 65 66 at offset 0 and then reading
10 bytes from offset 0 returns 10 bytes, and reading 10 bytes from offset 2
returns 10 bytes, none of the last ones ever written. -/
theorem C4_unwritten_bytes_read_back :
    ∃ d, scull_write (kmalloc_fill 170) [] [65, 66] 0 = .returned 2 2 d ∧
      scull_read d 10 0 = ⟨10, 10, [65, 66, 170, 170, 170, 170, 170, 170, 170, 170]⟩ ∧
      scull_read d 10 2 = ⟨10, 12, List.replicate 10 170⟩ :=
  ⟨_, rfl, rfl, rfl⟩

/-- C5, at the failing input: the chain has one page and the offset 17592186044416
has page index 4294967296, yet reading 1 byte there returns the first byte of
page 0 and advances the offset. -/
theorem C5_read_past_chain_aliases_page_zero :
    [page_A].length ≤ 17592186044416 / SCULL_PAGE_SIZE ∧
    scull_read [page_A] 1 17592186044416 = ⟨1, 17592186044417, [65]⟩ :=
  ⟨by decide, rfl⟩

/-- C7, at the failing input: on the empty device, with every allocation
succeeding, a write of one byte at offset 17592186044416 (page index
4294967296) leaves a chain of exactly one page, with the byte stored in page 0. -/
theorem C7_write_far_offset_one_page :
    ∃ d, scull_write (kmalloc_fill 0) [] [65] 17592186044416 =
        .returned 1 17592186044417 d ∧
      d.length = 1 ∧ d.length ≠ max 0 (17592186044416 / SCULL_PAGE_SIZE + 1) ∧
      scull_read d 1 0 = ⟨1, 1, [65]⟩ :=
  ⟨_, rfl, rfl, by decide, rfl⟩

/-! ## Address translation, the head page and the undo loop -/

/-- C11, at the failing input: for the offset 17592186044416 (2^44) the page number
that read and write compute is 0, while the offset divided by 4096 is
4294967296; the quantum-set index and the in-quantum index are as claimed. -/
theorem C11_page_number_narrowed :
    pagenum_of 17592186044416 = 0 ∧
    (17592186044416 : Int) / 4096 = 4294967296 ∧
    qsetnum_of 17592186044416 = 0 ∧ qidx_of 17592186044416 = 0 := by
  decide

/-- The undo loop never leaves through its condition: the index is unsigned, so
`j >= 0` always holds. -/
theorem rollback_loop_never_exits :
    ∀ (fuel j : Nat) (freed freed' : List Nat),
      rollback_loop fuel j freed ≠ .exited freed' := by
  intro fuel
  induction fuel with
  | zero => intro j freed freed'; simp [rollback_loop]
  | succ n ih =>
    intro j freed freed'
    rw [rollback_loop]
    simp only [Nat.zero_le, if_true]
    by_cases h : j < SCULL_QSET_LEN
    · simp only [h, if_true]
      exact ih _ _ _
    · simp [h]

theorem rollback_never_exits (j : Nat) (freed : List Nat) : rollback j ≠ .exited freed :=
  rollback_loop_never_exits _ _ _ _

/-- The undo loop started at an index below `SCULL_QSET_LEN` frees the quanta from
that index down to 0 and then indexes the quantum set at 4294967295. -/
theorem rollback_loop_from (j : Nat) (hj : j < SCULL_QSET_LEN) :
    ∀ (fuel : Nat) (freed : List Nat), j + 2 ≤ fuel →
      rollback_loop fuel j freed =
        .out_of_bounds (freed ++ (List.range (j + 1)).reverse) 4294967295 := by
  induction j with
  | zero =>
    intro fuel freed hf
    obtain ⟨f, rfl⟩ : ∃ f, fuel = f + 2 := ⟨fuel - 2, by omega⟩
    rw [rollback_loop]
    simp only [Nat.zero_le, if_true, hj]
    rw [rollback_loop]
    have h1 : to_u32 (((0 : Nat) : Int) - 1) = 4294967295 := by decide
    rw [h1]
    simp [SCULL_QSET_LEN, List.range_succ]
  | succ n ih =>
    intro fuel freed hf
    obtain ⟨f, rfl⟩ : ∃ f, fuel = f + 1 := ⟨fuel - 1, by omega⟩
    rw [rollback_loop]
    simp only [Nat.zero_le, if_true, hj]
    have h1 : to_u32 (((n + 1 : Nat) : Int) - 1) = n := by
      unfold to_u32 SCULL_QSET_LEN at *
      omega
    rw [h1, ih (by omega) f _ (by omega)]
    simp [List.range_succ, List.append_assoc]

/-- C13, at the failing input: on the empty device, a write whose second
allocation (the quantum set of page 0) fails returns -ENOMEM and leaves the
head pointer holding the page that was just freed: the head page was linked
before its quantum set and quanta existed. -/
theorem C13_head_linked_before_built :
    scull_write (kmalloc_fail_at 1 0) [] [65] 0 = .returned_stale (-ENOMEM) 0 ∧
    ∀ d, scull_write (kmalloc_fail_at 1 0) [] [65] 0 ≠ .returned (-ENOMEM) 0 d := by
  constructor
  · rfl
  · intro d h
    have h2 : scull_write (kmalloc_fail_at 1 0) [] [65] 0 = .returned_stale (-ENOMEM) 0 := rfl
    rw [h2] at h
    cases h

/-- C14, at the failing inputs: when quantum 3 of a new head page cannot be
allocated (call 5), the undo loop frees quanta 2, 1, 0 and then indexes the
quantum set at 4294967295; when quantum 0 cannot be allocated (call 2) it
starts at index 4294967295. In neither case does the write reach its return
statement, and the same happens for a page other than the head (call 39). -/
theorem C14_rollback_never_returns :
    scull_write (kmalloc_fail_at 5 0) [] [65] 0 =
      .no_return (.out_of_bounds [2, 1, 0] 4294967295) ∧
    scull_write (kmalloc_fail_at 2 0) [] [65] 0 =
      .no_return (.out_of_bounds [] 4294967295) ∧
    scull_write (kmalloc_fail_at 39 0) [] [65] 4096 =
      .no_return (.out_of_bounds [2, 1, 0] 4294967295) :=
  ⟨rfl, rfl, rfl⟩

/-! ## Teardown -/

theorem exit_page_length (idx : Nat) : (exit_page idx).length = 34 := by
  simp [exit_page, SCULL_QSET_LEN]

theorem exit_page_mem (idx : Nat) (f : Freed) :
    f ∈ exit_page idx ↔
      (∃ j, j < SCULL_QSET_LEN ∧ f = .quantum idx j) ∨ f = .qset idx ∨ f = .page idx := by
  unfold exit_page
  simp only [List.mem_append, List.mem_map, List.mem_range, List.mem_cons, List.mem_singleton,
    List.not_mem_nil, or_false]
  constructor
  · rintro (⟨j, hj, rfl⟩ | h | h)
    · exact Or.inl ⟨j, hj, rfl⟩
    · exact Or.inr (Or.inl h)
    · exact Or.inr (Or.inr h)
  · rintro (⟨j, hj, rfl⟩ | h | h)
    · exact Or.inl ⟨j, hj, rfl⟩
    · exact Or.inr (Or.inl h)
    · exact Or.inr (Or.inr h)

theorem exit_page_nodup (idx : Nat) : (exit_page idx).Nodup := by
  unfold exit_page
  rw [List.nodup_append]
  refine ⟨?_, by simp, ?_⟩
  · apply List.Nodup.map
    · intro a b h
      cases h
      rfl
    · exact List.nodup_range _
  · intro f hf hf2
    simp only [List.mem_map, List.mem_range] at hf
    obtain ⟨j, _, rfl⟩ := hf
    simp at hf2

theorem exit_walk_mem (f : Freed) :
    ∀ (d : List scull_page) (idx : Nat),
      f ∈ exit_walk idx d → ∃ i, idx ≤ i ∧ i < idx + d.length ∧ f ∈ exit_page i := by
  intro d
  induction d with
  | nil => intro idx h; simp [exit_walk] at h
  | cons p ps ih =>
    intro idx h
    rw [exit_walk, List.mem_append] at h
    rcases h with h | h
    · exact ⟨idx, Nat.le_refl _, by simp, h⟩
    · obtain ⟨i, h1, h2, h3⟩ := ih (idx + 1) h
      exact ⟨i, by omega, by simp only [List.length_cons]; omega, h3⟩

theorem exit_page_disjoint (i k : Nat) (hik : i ≠ k) (f : Freed)
    (h1 : f ∈ exit_page i) (h2 : f ∈ exit_page k) : False := by
  rw [exit_page_mem] at h1 h2
  rcases h1 with ⟨j, _, rfl⟩ | rfl | rfl <;> rcases h2 with ⟨j2, _, h⟩ | h | h <;>
    cases h <;> exact hik rfl

theorem exit_walk_nodup : ∀ (d : List scull_page) (idx : Nat), (exit_walk idx d).Nodup := by
  intro d
  induction d with
  | nil => intro idx; simp [exit_walk]
  | cons p ps ih =>
    intro idx
    rw [exit_walk, List.nodup_append]
    refine ⟨exit_page_nodup idx, ih (idx + 1), ?_⟩
    intro f h1 h2
    obtain ⟨i, hi, _, h3⟩ := exit_walk_mem f ps (idx + 1) h2
    exact exit_page_disjoint idx i (by omega) f h1 h3

theorem exit_walk_eq : ∀ (d : List scull_page) (idx : Nat),
    exit_walk idx d = ((List.range' idx d.length).map exit_page).flatten := by
  intro d
  induction d with
  | nil => intro idx; simp [exit_walk]
  | cons p ps ih =>
    intro idx
    rw [exit_walk, ih (idx + 1)]
    simp [List.range'_succ]

theorem exit_page_counts (idx : Nat) :
    (exit_page idx).countP Freed.is_quantum = SCULL_QSET_LEN ∧
    (exit_page idx).countP Freed.is_qset = 1 ∧
    (exit_page idx).countP Freed.is_page = 1 := by
  unfold exit_page
  refine ⟨?_, ?_, ?_⟩
  · rw [List.countP_append, List.countP_map,
      List.countP_eq_length.mpr (fun a _ => by simp [Freed.is_quantum])]
    simp [Freed.is_quantum, List.countP_cons]
  · rw [List.countP_append, List.countP_map]
    simp [Freed.is_qset, Function.comp, List.countP_cons]
  · rw [List.countP_append, List.countP_map]
    simp [Freed.is_page, Function.comp, List.countP_cons]

theorem exit_walk_counts : ∀ (d : List scull_page) (idx : Nat),
    (exit_walk idx d).countP Freed.is_quantum = SCULL_QSET_LEN * d.length ∧
    (exit_walk idx d).countP Freed.is_qset = d.length ∧
    (exit_walk idx d).countP Freed.is_page = d.length := by
  intro d
  induction d with
  | nil => intro idx; simp [exit_walk]
  | cons p ps ih =>
    intro idx
    obtain ⟨h1, h2, h3⟩ := ih (idx + 1)
    obtain ⟨g1, g2, g3⟩ := exit_page_counts idx
    rw [exit_walk]
    simp only [List.countP_append, h1, h2, h3, g1, g2, g3, List.length_cons]
    refine ⟨?_, ?_, ?_⟩ <;> ring

/-- C17: for every chain of n pages, teardown frees, page after page from head to
tail, the 32 quanta of the page, then its quantum set, then the page structure;
no block is freed twice; in total 32 n quanta, n quantum sets and n pages are
freed; for the empty chain nothing is freed. -/
theorem C17_teardown_frees_once (datap : List scull_page) :
    scull_exit datap =
      ((List.range datap.length).map (fun i =>
        (List.range 32).map (Freed.quantum i) ++ [Freed.qset i, Freed.page i])).flatten ∧
    (scull_exit datap).Nodup ∧
    (scull_exit datap).countP Freed.is_quantum = 32 * datap.length ∧
    (scull_exit datap).countP Freed.is_qset = datap.length ∧
    (scull_exit datap).countP Freed.is_page = datap.length ∧
    scull_exit [] = [] := by
  refine ⟨?_, exit_walk_nodup datap 0, (exit_walk_counts datap 0).1,
    (exit_walk_counts datap 0).2.1, (exit_walk_counts datap 0).2.2, rfl⟩
  unfold scull_exit
  rw [exit_walk_eq, ← List.range_eq_range']
  rfl

/-! ## The bytes a write stores -/

theorem store_bytes_length (q : List Byte) (qi : Nat) (src : List Byte)
    (h : qi + src.length ≤ q.length) : (store_bytes q qi src).length = q.length := by
  unfold store_bytes
  simp only [List.length_append, List.length_take, List.length_drop]
  omega

theorem store_bytes_getElem? (q : List Byte) (qi : Nat) (src : List Byte) (k : Nat)
    (h : qi + src.length ≤ q.length) :
    (store_bytes q qi src)[k]? =
      if qi ≤ k ∧ k < qi + src.length then src[k - qi]? else q[k]? := by
  unfold store_bytes
  have htake : (q.take qi).length = qi := by
    rw [List.length_take]
    omega
  by_cases h1 : k < qi
  · have hc : ¬ (qi ≤ k ∧ k < qi + src.length) := by omega
    rw [if_neg hc, List.getElem?_append_left (by simp only [List.length_append, htake]; omega),
      List.getElem?_append_left (by omega), List.getElem?_take_of_lt h1]
  · by_cases h2 : k < qi + src.length
    · have hc : qi ≤ k ∧ k < qi + src.length := by omega
      rw [if_pos hc, List.getElem?_append_left (by simp only [List.length_append, htake]; omega),
        List.getElem?_append_right (by omega), htake]
    · have hc : ¬ (qi ≤ k ∧ k < qi + src.length) := by omega
      rw [if_neg hc, List.getElem?_append_right
        (by simp only [List.length_append, htake]; omega), List.getElem?_drop]
      simp only [List.length_append, htake]
      congr 1
      omega

theorem copy_from_user_getElem? (p : scull_page) (S qi : Nat) (src : List Byte) (s : Nat) :
    (copy_from_user p S qi src).qsetpp[s]? =
      if s = S then (p.qsetpp[S]?).map (fun q => store_bytes q qi src) else p.qsetpp[s]? := by
  unfold copy_from_user
  simp only [List.getElem?_set]
  by_cases hs : s = S
  · subst hs
    simp only [if_true]
    by_cases hl : s < p.qsetpp.length
    · simp [hl, List.getElem?_eq_getElem hl]
    · simp [hl, List.getElem?_eq_none (Nat.le_of_not_lt hl)]
  · have : ¬ S = s := fun h => hs h.symm
    simp [hs, this]

/-- The bytes of the chain after page `P` of `L` received `src` at index `qi` of
quantum `S`. -/
theorem byte_at_set (L : List scull_page) (P S qi : Nat) (src : List Byte)
    (p : scull_page) (q : List Byte) (hp : L[P]? = some p) (hq : p.qsetpp[S]? = some q)
    (hlen : qi + src.length ≤ q.length) (pg s k : Nat) :
    byte_at (L.set P (copy_from_user (L.getD P ⟨[]⟩) S qi src)) pg s k =
      if pg = P ∧ s = S ∧ qi ≤ k ∧ k < qi + src.length then src[k - qi]?
      else byte_at L pg s k := by
  have hPlt : P < L.length := by
    by_contra hc
    rw [List.getElem?_eq_none (Nat.le_of_not_lt hc)] at hp
    cases hp
  have hgetD : L.getD P ⟨[]⟩ = p := by
    simp [List.getD_eq_getElem?_getD, hp]
  unfold byte_at
  rw [hgetD, List.getElem?_set]
  by_cases hpg : pg = P
  · subst hpg
    simp only [if_true, hPlt, Option.some_bind, true_and, hp]
    rw [copy_from_user_getElem?]
    by_cases hs : s = S
    · subst hs
      simp only [if_true, hq, Option.map_some', Option.some_bind, true_and]
      exact store_bytes_getElem? q qi src k hlen
    · simp [hs]
  · have : ¬ P = pg := fun h => hpg h.symm
    simp [hpg, this]

theorem byte_at_append_left (datap news : List scull_page) (pg s k : Nat)
    (h : pg < datap.length) : byte_at (datap ++ news) pg s k = byte_at datap pg s k := by
  unfold byte_at
  rw [List.getElem?_append_left h]

/-! ## Every write that returns -/

theorem alloc_quanta_shape (km : Kmalloc) (c : Nat) :
    ∀ (todo j : Nat) (qs qs' : List (List Byte)),
      alloc_quanta km c todo j qs = .ok qs' →
      qs'.length = qs.length + todo ∧
        ∀ q ∈ qs', q ∈ qs ∨ q.length = SCULL_QUANTUM_LEN := by
  intro todo
  induction todo with
  | zero =>
    intro j qs qs' h
    simp only [alloc_quanta, Except.ok.injEq] at h
    subst h
    exact ⟨rfl, fun q hq => Or.inl hq⟩
  | succ n ih =>
    intro j qs qs' h
    rw [alloc_quanta] at h
    cases hk : km (c + j) with
    | none => simp [hk] at h
    | some g =>
      simp only [hk] at h
      obtain ⟨h1, h2⟩ := ih _ _ _ h
      refine ⟨by simp only [List.length_append, List.length_singleton] at h1; omega, ?_⟩
      intro q hq
      rcases h2 q hq with h3 | h3
      · simp only [List.mem_append, List.mem_singleton] at h3
        rcases h3 with h3 | h3
        · exact Or.inl h3
        · exact Or.inr (by rw [h3]; exact quantum_of_length g)
      · exact Or.inr h3

theorem new_page_shape (km : Kmalloc) (c : Nat) (p : scull_page)
    (h : new_page km c = .ok p) : page_shape p := by
  unfold new_page at h
  cases h0 : km c with
  | none => simp [h0] at h
  | some g0 =>
    cases h1 : km (c + 1) with
    | none => simp [h0, h1] at h
    | some g1 =>
      simp only [h0, h1] at h
      cases h2 : alloc_quanta km (c + 2) SCULL_QSET_LEN 0 [] with
      | error j => simp [h2] at h
      | ok qs =>
        simp only [h2, Except.ok.injEq] at h
        subst h
        obtain ⟨g1, g2⟩ := alloc_quanta_shape km (c + 2) _ _ _ _ h2
        refine ⟨by simpa using g1, ?_⟩
        intro q hq
        rcases g2 q hq with g3 | g3
        · simp at g3
        · exact g3

theorem create_pages_shape (km : Kmalloc) :
    ∀ (k c : Nat), (∀ p ∈ (create_pages km k c).1, page_shape p) ∧
      ((create_pages km k c).2 = none → (create_pages km k c).1.length = k) := by
  intro k
  induction k with
  | zero => intro c; simp [create_pages]
  | succ n ih =>
    intro c
    rw [create_pages]
    cases hnp : new_page km c with
    | error e => simp
    | ok p =>
      obtain ⟨h1, h2⟩ := ih (c + 34)
      simp only [List.mem_cons, forall_eq_or_imp, List.length_cons, Nat.add_right_cancel_iff]
      exact ⟨⟨new_page_shape km c p hnp, h1⟩, h2⟩

/-- What a call of lines 324-450 that reaches a `return` hands back: either
-ENOMEM with the offset untouched and the chain extended by fully built pages,
or the byte count with the offset advanced and the bytes copied into page
`pagenum` of the chain extended by fully built pages. -/
theorem write_from_head_returned (km : Kmalloc) (datap : List scull_page)
    (hd : datap ≠ []) (c : Nat) (buf : List Byte) (O : Int) (ret pos : Int)
    (d : List scull_page) (h : write_from_head km datap c buf O = .returned ret pos d) :
    ∃ news, (∀ p ∈ news, page_shape p) ∧
      ((ret = -ENOMEM ∧ pos = O ∧ d = datap ++ news) ∨
       (pagenum_of O < (datap ++ news).length ∧
        ret = (min buf.length (to_u32 ((SCULL_QUANTUM_LEN : Int) - qidx_of O)) : Nat) ∧
        pos = to_s64 (O + (min buf.length
          (to_u32 ((SCULL_QUANTUM_LEN : Int) - qidx_of O)) : Nat)) ∧
        d = (datap ++ news).set (pagenum_of O)
          (copy_from_user ((datap ++ news).getD (pagenum_of O) ⟨[]⟩) (qsetnum_of O)
            (qidx_of O)
            (buf.take (min buf.length (to_u32 ((SCULL_QUANTUM_LEN : Int) - qidx_of O))))))) := by
  obtain ⟨hshape, hlen⟩ := create_pages_shape km (pagenum_of O + 1 - datap.length) c
  refine ⟨(create_pages km (pagenum_of O + 1 - datap.length) c).1, hshape, ?_⟩
  unfold write_from_head at h
  simp only at h
  rw [write_loop_from_head km _ c datap hd] at h
  unfold loop_end_of at h
  cases h2 : (create_pages km (pagenum_of O + 1 - datap.length) c).2 with
  | some e =>
    left
    rw [h2] at h
    cases e with
    | page =>
      simp only [WriteResult.returned.injEq] at h
      exact ⟨h.1.symm, h.2.1.symm, h.2.2.symm⟩
    | qset =>
      simp only [WriteResult.returned.injEq] at h
      exact ⟨h.1.symm, h.2.1.symm, h.2.2.symm⟩
    | quantum j =>
      simp only at h
      cases hr : rollback j with
      | exited f => exact absurd hr (rollback_never_exits j f)
      | out_of_bounds f i => rw [hr] at h; cases h
      | running f => rw [hr] at h; cases h
  | none =>
    right
    have hl := hlen h2
    rw [h2] at h
    simp only at h
    have hlt : pagenum_of O <
        (datap ++ (create_pages km (pagenum_of O + 1 - datap.length) c).1).length := by
      simp only [List.length_append, hl]
      omega
    rw [List.drop_eq_getElem_cons hlt] at h
    simp only at h
    rw [List.getD_eq_getElem _ _ hlt, List.set_eq_take_cons_drop _ hlt]
    refine ⟨hlt, ?_⟩
    by_cases hc : to_u32 ((SCULL_QUANTUM_LEN : Int) - qidx_of O) < buf.length
    · have hm : min buf.length (to_u32 ((SCULL_QUANTUM_LEN : Int) - qidx_of O)) =
          to_u32 ((SCULL_QUANTUM_LEN : Int) - qidx_of O) := by omega
      simp only [hc, if_true, WriteResult.returned.injEq] at h
      rw [hm]
      exact ⟨h.1.symm, h.2.1.symm, h.2.2.symm⟩
    · have hm : min buf.length (to_u32 ((SCULL_QUANTUM_LEN : Int) - qidx_of O)) =
          buf.length := by omega
      simp only [hc, if_false, WriteResult.returned.injEq] at h
      rw [hm]
      exact ⟨h.1.symm, h.2.1.symm, h.2.2.symm⟩

/-- What a call of `scull_write` that reaches a `return` with a valid head pointer
hands back, for any behaviour of `kmalloc`. -/
theorem scull_write_returned (km : Kmalloc) (datap : List scull_page)
    (buf : List Byte) (O : Int) (ret pos : Int) (d : List scull_page)
    (h : scull_write km datap buf O = .returned ret pos d) :
    ∃ news, (∀ p ∈ news, page_shape p) ∧
      ((ret = -ENOMEM ∧ pos = O ∧ d = datap ++ news) ∨
       (pagenum_of O < (datap ++ news).length ∧
        ret = (min buf.length (to_u32 ((SCULL_QUANTUM_LEN : Int) - qidx_of O)) : Nat) ∧
        pos = to_s64 (O + (min buf.length
          (to_u32 ((SCULL_QUANTUM_LEN : Int) - qidx_of O)) : Nat)) ∧
        d = (datap ++ news).set (pagenum_of O)
          (copy_from_user ((datap ++ news).getD (pagenum_of O) ⟨[]⟩) (qsetnum_of O)
            (qidx_of O)
            (buf.take (min buf.length (to_u32 ((SCULL_QUANTUM_LEN : Int) - qidx_of O))))))) := by
  cases datap with
  | cons p ps =>
    unfold scull_write at h
    simp only at h
    exact write_from_head_returned km (p :: ps) (by simp) 0 buf O ret pos d h
  | nil =>
    unfold scull_write at h
    cases hnp : new_page km 0 with
    | error e =>
      rw [hnp] at h
      cases e with
      | page =>
        simp only [WriteResult.returned.injEq] at h
        exact ⟨[], by simp, Or.inl ⟨h.1.symm, h.2.1.symm, by simpa using h.2.2.symm⟩⟩
      | qset => cases h
      | quantum j =>
        simp only at h
        cases hr : rollback j with
        | exited f => exact absurd hr (rollback_never_exits j f)
        | out_of_bounds f i => rw [hr] at h; cases h
        | running f => rw [hr] at h; cases h
    | ok p =>
      rw [hnp] at h
      simp only at h
      obtain ⟨news, hs, hcase⟩ := write_from_head_returned km [p] (by simp) 34 buf O ret pos d h
      refine ⟨p :: news, ?_, ?_⟩
      · intro x hx
        rcases List.mem_cons.mp hx with rfl | hx
        · exact new_page_shape km 0 x hnp
        · exact hs x hx
      · simpa using hcase

/-! ## The frame of a write -/

theorem page_shape_of_mem (datap news : List scull_page) (hwf : well_formed datap)
    (hs : ∀ p ∈ news, page_shape p) (p : scull_page) (hp : p ∈ datap ++ news) :
    page_shape p := by
  rcases List.mem_append.mp hp with h | h
  · exact hwf p h
  · exact hs p h

/-- The target of the copy exists in a chain of well shaped pages: page `P` and its
quantum `S`, of `SCULL_QUANTUM_LEN` bytes. -/
theorem copy_target (L : List scull_page) (hL : ∀ p ∈ L, page_shape p) (P S : Nat)
    (hP : P < L.length) (hS : S < SCULL_QSET_LEN) :
    ∃ p q, L[P]? = some p ∧ p.qsetpp[S]? = some q ∧ q.length = SCULL_QUANTUM_LEN := by
  have hmem : L[P] ∈ L := List.getElem_mem hP
  obtain ⟨h1, h2⟩ := hL _ hmem
  have hS2 : S < (L[P]).qsetpp.length := by rw [h1]; exact hS
  exact ⟨L[P], (L[P]).qsetpp[S], List.getElem?_eq_getElem hP, List.getElem?_eq_getElem hS2,
    h2 _ (List.getElem_mem hS2)⟩

/-- The frame of a write in terms of the page number the code holds: for every
well-formed chain, every offset O at least 0 and every buffer, a write that
returns r at least 0 leaves every byte of every page that existed before
unchanged, except positions qidx to qidx + r - 1 of quantum s of page P, where
qidx + r is at most 128 and P is the 32-bit page number `(O / 4096) mod 2^32`,
which is `O / 4096` only for offsets below 2^44. -/
theorem scull_write_frame (km : Kmalloc) (datap : List scull_page) (buf : List Byte)
    (O ret pos : Int) (d : List scull_page) (P s qidx : Nat)
    (hwf : well_formed datap) (h0 : 0 ≤ O)
    (hw : scull_write km datap buf O = .returned ret pos d) (hret : 0 ≤ ret)
    (hP : (P : Int) = O / 4096 % 4294967296) (hs : (s : Int) = O % 4096 / 128)
    (hq : (qidx : Int) = O % 4096 % 128) :
    qidx + ret.toNat ≤ 128 ∧
    ∀ pg s' k, pg < datap.length →
      ¬ (pg = P ∧ s' = s ∧ qidx ≤ k ∧ k < qidx + ret.toNat) →
      byte_at d pg s' k = byte_at datap pg s' k := by
  obtain ⟨news, hshape, hcase⟩ := scull_write_returned km datap buf O ret pos d hw
  have hPn : pagenum_of O = P := by rw [pagenum_of_nonneg O h0]; omega
  have hSn : qsetnum_of O = s := by rw [qsetnum_of_nonneg O h0]; omega
  have hQn : qidx_of O = qidx := by rw [qidx_of_nonneg O h0]; omega
  have hroom : to_u32 ((SCULL_QUANTUM_LEN : Int) - qidx_of O) = 128 - qidx := by
    rw [room_of_nonneg O h0]; omega
  rcases hcase with ⟨hr, _, _⟩ | ⟨hlt, hr, _, hd⟩
  · exfalso
    unfold ENOMEM at hr
    omega
  · rw [hroom] at hr hd
    rw [hPn] at hlt hd
    rw [hSn, hQn] at hd
    have hrn : ret.toNat = min buf.length (128 - qidx) := by omega
    have hqlt : qidx < 128 := by omega
    have hslt : s < SCULL_QSET_LEN := by unfold SCULL_QSET_LEN; omega
    refine ⟨by omega, ?_⟩
    intro pg s' k hpg hn
    obtain ⟨p, q, hp, hq2, hql⟩ := copy_target (datap ++ news)
      (page_shape_of_mem datap news hwf hshape) P s hlt hslt
    have hsrc : (buf.take (min buf.length (128 - qidx))).length =
        min buf.length (128 - qidx) := by
      rw [List.length_take]; omega
    rw [hd, byte_at_set (datap ++ news) P s qidx _ p q hp hq2
      (by rw [hsrc, hql]; unfold SCULL_QUANTUM_LEN SCULL_PAGE_SIZE SCULL_QSET_LEN; omega)]
    rw [hsrc, ← hrn, if_neg hn]
    exact byte_at_append_left datap news pg s' k hpg

/-- The frame at a small offset: on the chain of the single page whose first byte
is 65, a write of the byte 66 at offset 1 returns 1 and leaves every byte other
than index 1 of quantum 0 of page 0 as it was. -/
theorem scull_write_frame_small_offset :
    ∃ d, scull_write (kmalloc_fill 0) [page_A] [66] 1 = .returned 1 2 d ∧
      1 + (1 : Int).toNat ≤ 128 ∧
      ∀ pg s' k, pg < [page_A].length →
        ¬ (pg = 0 ∧ s' = 0 ∧ 1 ≤ k ∧ k < 1 + (1 : Int).toNat) →
        byte_at d pg s' k = byte_at [page_A] pg s' k :=
  ⟨_, rfl, scull_write_frame (kmalloc_fill 0) [page_A] [66] 1 1 2 _ 0 0 1
    (by
      intro p hp
      simp only [List.mem_singleton] at hp
      subst hp
      refine ⟨by decide, ?_⟩
      intro q hq
      simp only [page_A, List.mem_cons, List.mem_replicate] at hq
      rcases hq with rfl | ⟨_, rfl⟩
      · simp [SCULL_QUANTUM_LEN, SCULL_PAGE_SIZE, SCULL_QSET_LEN]
      · simp)
    (by decide) rfl (by decide) (by decide) (by decide) (by decide)⟩

/-! ## Reading back what was written -/

theorem read_walk_zero (i : Nat) (datap : List scull_page) : read_walk i 0 datap = datap := by
  cases datap with
  | nil => rfl
  | cons p ps => simp [read_walk]

/-- The copy loop returns the bytes it finds from `idx` on when they are all
non-zero. -/
theorem read_loop_prefix (q : List Byte) :
    ∀ (src : List Byte) (idx : Nat),
      (∀ t, t < src.length → q[idx + t]? = src[t]?) → (∀ b ∈ src, b ≠ 0) →
      read_loop q src.length idx = src := by
  intro src
  induction src with
  | nil => intro idx _ _; rfl
  | cons b bs ih =>
    intro idx h hnz
    have h0 : q[idx]? = some b := by simpa using h 0 (by simp)
    have hb : q.getD idx 0 = b := by simp [List.getD_eq_getElem?_getD, h0]
    have hne : b ≠ 0 := hnz b (by simp)
    rw [List.length_cons, read_loop]
    simp only [hb, ne_eq, hne, not_false_eq_true, if_true, List.cons.injEq, true_and]
    apply ih (idx + 1)
    · intro t ht
      have := h (t + 1) (by simp only [List.length_cons]; omega)
      simpa [Nat.add_assoc, Nat.add_comm 1 t] using this
    · intro x hx
      exact hnz x (by simp [hx])

theorem well_formed_grown (km : Kmalloc) (datap : List scull_page) (n : Nat)
    (hwf : well_formed datap) : ∀ p ∈ grown km datap n, page_shape p := by
  intro p hp
  unfold grown at hp
  rcases List.mem_append.mp hp with h | h
  · exact hwf p h
  · simp only [List.mem_map] at h
    obtain ⟨t, _, rfl⟩ := h
    exact fresh_page_shape km _

/-- C20: for every well-formed chain, every offset O from 0 up to 4095 and every
buffer of n non-zero bytes with n between 1 and 128 - qidx, when every allocation
succeeds, writing the buffer at O returns n, and reading n bytes at O afterwards
returns exactly the n bytes of the buffer and moves the read offset to O + n. -/
theorem C20_round_trip_first_page (km : Kmalloc) (hkm : ∀ n, (km n).isSome)
    (datap : List scull_page) (hwf : well_formed datap) (buf : List Byte) (O : Int)
    (qidx : Nat) (h0 : 0 ≤ O) (hO : O < 4096) (hq : (qidx : Int) = O % 4096 % 128)
    (hn1 : 1 ≤ buf.length) (hn2 : buf.length ≤ 128 - qidx) (hnz : ∀ b ∈ buf, b ≠ 0) :
    ∃ d, scull_write km datap buf O = .returned buf.length (O + buf.length) d ∧
      scull_read d buf.length O = ⟨buf.length, O + buf.length, buf⟩ := by
  have hPn : pagenum_of O = 0 := by rw [pagenum_of_nonneg O h0]; omega
  have hQn : qidx_of O = qidx := by rw [qidx_of_nonneg O h0]; omega
  have hSlt : qsetnum_of O < SCULL_QSET_LEN := by
    rw [qsetnum_of_nonneg O h0]; unfold SCULL_QSET_LEN; omega
  have hroom : to_u32 ((SCULL_QUANTUM_LEN : Int) - qidx_of O) = 128 - qidx := by
    rw [room_of_nonneg O h0]; omega
  have hmin : buf.length = min buf.length (to_u32 ((SCULL_QUANTUM_LEN : Int) - qidx_of O)) := by
    rw [hroom]; omega
  have hw := scull_write_ok km hkm datap buf O buf.length hmin
  rw [to_s64_of_range _ (by omega) (by omega), hPn, hQn, List.take_length] at hw
  refine ⟨_, hw, ?_⟩
  have hlen : 0 < (grown km datap 0).length := by rw [grown_length]; omega
  obtain ⟨p, q, hp, hq2, hql⟩ := copy_target (grown km datap 0)
    (well_formed_grown km datap 0 hwf) 0 (qsetnum_of O) hlen hSlt
  have hgetD : (grown km datap 0).getD 0 ⟨[]⟩ = p := by
    simp [List.getD_eq_getElem?_getD, hp]
  rw [hgetD]
  obtain ⟨g, gs, hg⟩ : ∃ g gs, grown km datap 0 = g :: gs := by
    cases hgr : grown km datap 0 with
    | nil => rw [hgr] at hlen; simp at hlen
    | cons g gs => exact ⟨g, gs, rfl⟩
  rw [hg, List.set_cons_zero]
  have hroom2 : to_u32 ((SCULL_QUANTUM_LEN : Int) - qidx) = 128 - qidx := by
    rw [hQn] at hroom; exact hroom
  unfold scull_read
  simp only [hPn, read_walk_zero, hQn, hroom2]
  have hcopy : (copy_from_user p (qsetnum_of O) qidx buf).qsetpp.getD (qsetnum_of O) [] =
      store_bytes q qidx buf := by
    rw [List.getD_eq_getElem?_getD, copy_from_user_getElem?]
    simp [hq2]
  have hrem : (if 128 - qidx < buf.length then 128 - qidx else buf.length) = buf.length := by
    split <;> omega
  rw [hcopy, hrem]
  have hloop : read_loop (store_bytes q qidx buf) buf.length qidx = buf := by
    apply read_loop_prefix
    · intro t ht
      rw [store_bytes_getElem? q qidx buf (qidx + t)
        (by rw [hql]; unfold SCULL_QUANTUM_LEN SCULL_PAGE_SIZE SCULL_QSET_LEN; omega)]
      rw [if_pos (by omega)]
      congr 1
      omega
    · exact hnz
  rw [hloop, to_s64_of_range _ (by omega) (by omega)]

/-- C20, witness: on the empty device, writing the bytes 65 66 67 at offset 200
and reading 3 bytes at offset 200 returns the three bytes and the offset 203. -/
theorem C20_round_trip_first_page_witness :
    (0 : Int) ≤ 200 ∧ (200 : Int) < 4096 ∧ ((72 : Nat) : Int) = 200 % 4096 % 128 ∧
    ∃ d, scull_write (kmalloc_fill 170) [] [65, 66, 67] 200 = .returned 3 203 d ∧
      scull_read d 3 200 = ⟨3, 203, [65, 66, 67]⟩ :=
  ⟨by decide, by decide, by decide,
    C20_round_trip_first_page (kmalloc_fill 170) (fun _ => rfl) []
      (by intro p hp; simp at hp) [65, 66, 67] 200 72 (by decide) (by decide) (by decide)
      (by decide) (by decide)
      (by
        intro b hb
        simp only [List.mem_cons, List.mem_singleton, List.not_mem_nil, or_false] at hb
        rcases hb with rfl | rfl | rfl <;> decide)⟩

/-! ## One write, seen through offsets -/

theorem copy_from_user_shape (p : scull_page) (S qi : Nat) (src : List Byte)
    (hp : page_shape p) (hlen : qi + src.length ≤ SCULL_QUANTUM_LEN) :
    page_shape (copy_from_user p S qi src) := by
  obtain ⟨h1, h2⟩ := hp
  unfold copy_from_user
  refine ⟨by simpa using h1, ?_⟩
  intro q hq
  rcases List.mem_or_eq_of_mem_set hq with h | h
  · exact h2 q h
  · by_cases hS : S < p.qsetpp.length
    · have hq0 : p.qsetpp.getD S [] = p.qsetpp[S] := List.getD_eq_getElem _ _ hS
      have hl := h2 _ (List.getElem_mem hS)
      rw [h, hq0, store_bytes_length _ _ _ (by rw [hl]; exact hlen), hl]
    · rw [List.set_eq_of_length_le (Nat.le_of_not_lt hS)] at hq
      exact h2 q hq

/-- One write with succeeding allocations at an offset `o` below 2^44: its return
value, the new offset, and the bytes of the new chain in terms of offsets. -/
theorem write_step (km : Kmalloc) (hkm : ∀ n, (km n).isSome) (datap : List scull_page)
    (hwf : well_formed datap) (buf : List Byte) (o r : Nat) (ho : o < 17592186044416)
    (hr : r = min buf.length (128 - o % 128)) :
    ∃ d1, scull_write km datap buf (o : Int) = .returned r ((o + r : Nat) : Int) d1 ∧
      well_formed d1 ∧ datap.length ≤ d1.length ∧ o / 4096 < d1.length ∧
      (∀ t, t < r → byte_at_offset d1 (o + t) = buf[t]?) ∧
      (∀ off, off / 4096 < datap.length → ¬ (o ≤ off ∧ off < o + r) →
        byte_at_offset d1 off = byte_at_offset datap off) := by
  have h0 : (0 : Int) ≤ (o : Int) := Int.ofNat_nonneg o
  have hPn : pagenum_of (o : Int) = o / 4096 := by
    rw [pagenum_of_nonneg _ h0]; simp only [Int.toNat_ofNat]; omega
  have hSn : qsetnum_of (o : Int) = o % 4096 / 128 := by
    rw [qsetnum_of_nonneg _ h0]; simp only [Int.toNat_ofNat]
  have hQn : qidx_of (o : Int) = o % 128 := by
    rw [qidx_of_nonneg _ h0]; simp only [Int.toNat_ofNat]; omega
  have hroom : to_u32 ((SCULL_QUANTUM_LEN : Int) - qidx_of (o : Int)) = 128 - o % 128 := by
    rw [room_of_nonneg _ h0]; simp only [Int.toNat_ofNat]; omega
  have hw := scull_write_ok km hkm datap buf (o : Int) r (by rw [hroom]; exact hr)
  rw [to_s64_of_range _ (by omega) (by omega), hPn, hSn, hQn] at hw
  have hlen : o / 4096 < (grown km datap (o / 4096)).length := by rw [grown_length]; omega
  have hshape := well_formed_grown km datap (o / 4096) hwf
  obtain ⟨p, q, hp, hq2, hql⟩ := copy_target (grown km datap (o / 4096)) hshape (o / 4096)
    (o % 4096 / 128) hlen (by unfold SCULL_QSET_LEN; omega)
  have hgetD : (grown km datap (o / 4096)).getD (o / 4096) ⟨[]⟩ = p := by
    simp [List.getD_eq_getElem?_getD, hp]
  have hsrc : (buf.take r).length = r := by rw [List.length_take]; omega
  have hfit : o % 128 + (buf.take r).length ≤ q.length := by
    rw [hsrc, hql]; unfold SCULL_QUANTUM_LEN SCULL_PAGE_SIZE SCULL_QSET_LEN; omega
  have hpm : p ∈ grown km datap (o / 4096) := by
    obtain ⟨hh, rfl⟩ := List.getElem?_eq_some_iff.mp hp
    exact List.getElem_mem hh
  refine ⟨_, by exact_mod_cast hw, ?_, ?_, ?_, ?_, ?_⟩
  · intro x hx
    rcases List.mem_or_eq_of_mem_set hx with h | h
    · exact hshape x h
    · rw [h, hgetD]
      exact copy_from_user_shape p _ _ _ (hshape p hpm)
        (by rw [hsrc]; unfold SCULL_QUANTUM_LEN SCULL_PAGE_SIZE SCULL_QSET_LEN; omega)
  · rw [List.length_set, grown_length]; omega
  · rw [List.length_set]; exact hlen
  · intro t ht
    unfold byte_at_offset
    rw [byte_at_set _ _ _ _ _ p q hp hq2 hfit, hsrc, if_pos (by omega),
      List.getElem?_take_of_lt (by omega)]
    congr 1
    omega
  · intro off hoff hn
    unfold byte_at_offset
    rw [byte_at_set _ _ _ _ _ p q hp hq2 hfit, hsrc, if_neg (by omega)]
    unfold grown
    exact byte_at_append_left _ _ _ _ _ hoff

/-! ## Reissued short writes -/

theorem reissue_spec (kms : Nat → Kmalloc) (hk : ∀ i n, (kms i n).isSome) :
    ∀ (fuel i : Nat) (datap : List scull_page) (buf : List Byte) (o : Nat),
      well_formed datap → 1 ≤ buf.length → o + buf.length < 17592186044416 →
      (o % 128 + buf.length + 127) / 128 ≤ fuel →
      ∃ rets d, reissue kms fuel i datap buf (o : Int) =
          some (rets, ((o + buf.length : Nat) : Int), d) ∧
        rets.length = (o % 128 + buf.length + 127) / 128 ∧
        (∀ r ∈ rets, (1 : Int) ≤ r) ∧ well_formed d ∧ datap.length ≤ d.length ∧
        (∀ k, k < buf.length → byte_at_offset d (o + k) = buf[k]?) ∧
        (∀ off, off < o → off / 4096 < datap.length →
          byte_at_offset d off = byte_at_offset datap off) := by
  intro fuel
  induction fuel with
  | zero => intro i datap buf o _ h1 _ hf; omega
  | succ n ih =>
    intro i datap buf o hwf h1 hO hf
    obtain ⟨d1, hw, hwf1, hlen1, hP1, hbytes1, hframe1⟩ :=
      write_step (kms i) (hk i) datap hwf buf o (min buf.length (128 - o % 128))
        (by omega) rfl
    rw [reissue, hw]
    simp only [Int.toNat_ofNat]
    have hnn : ¬ ((min buf.length (128 - o % 128) : Nat) : Int) < 0 := by omega
    rw [if_neg hnn]
    by_cases hfin : buf.length ≤ 128 - o % 128
    · have hr : min buf.length (128 - o % 128) = buf.length := by omega
      rw [hr] at hw hbytes1 hframe1 ⊢
      rw [List.drop_length]
      simp only [if_true]
      refine ⟨_, _, rfl, ?_, ?_, hwf1, hlen1, hbytes1, ?_⟩
      · simp only [List.length_singleton]; omega
      · intro r hr2
        simp only [List.mem_singleton] at hr2
        omega
      · intro off ho hp
        exact hframe1 off hp (by omega)
    · have hr : min buf.length (128 - o % 128) = 128 - o % 128 := by omega
      rw [hr] at hw hbytes1 hframe1 ⊢
      have hrest : (buf.drop (128 - o % 128)).length = buf.length - (128 - o % 128) :=
        List.length_drop _ _
      have hne : buf.drop (128 - o % 128) ≠ [] := by
        intro h
        rw [h] at hrest
        simp only [List.length_nil] at hrest
        omega
      rw [if_neg hne]
      obtain ⟨rets, d, hre, hcount, hpos, hwf2, hlen2, hbytes2, hframe2⟩ :=
        ih (i + 1) d1 (buf.drop (128 - o % 128)) (o + (128 - o % 128)) hwf1
          (by omega) (by omega) (by omega)
      rw [hre]
      simp only [Option.map_some']
      have hend : o + (128 - o % 128) + (buf.drop (128 - o % 128)).length = o + buf.length := by
        omega
      rw [hend]
      refine ⟨_, _, rfl, ?_, ?_, hwf2, by omega, ?_, ?_⟩
      · simp only [List.length_cons, hcount]; omega
      · intro r hr2
        rcases List.mem_cons.mp hr2 with h | h
        · omega
        · exact hpos r h
      · intro k hk2
        by_cases hkr : k < 128 - o % 128
        · rw [hframe2 (o + k) (by omega) (by omega)]
          exact hbytes1 k hkr
        · have := hbytes2 (k - (128 - o % 128)) (by omega)
          rw [List.getElem?_drop] at this
          have e1 : o + (128 - o % 128) + (k - (128 - o % 128)) = o + k := by omega
          have e2 : 128 - o % 128 + (k - (128 - o % 128)) = k := by omega
          rw [e1, e2] at this
          exact this
      · intro off ho hp
        rw [hframe2 off (by omega) (by omega)]
        exact hframe1 off hp (by omega)

/-- C19: for every well-formed chain, every offset O at least 0 and every buffer of
n bytes, n at least 1, with O + n below 2^44, when every allocation succeeds,
calling write again and again with the bytes not yet written at the offset the
previous call returned ends within n / 128 + 2 calls, each call writing at least
1 byte, with the offset equal to O + n, and afterwards for every k below n the
byte stored at page (O + k) / 4096, quantum ((O + k) mod 4096) / 128, index
(O + k) mod 128 is byte k of the buffer. -/
theorem C19_reissued_writes_store_buffer (kms : Nat → Kmalloc)
    (hk : ∀ i n, (kms i n).isSome) (datap : List scull_page) (hwf : well_formed datap)
    (buf : List Byte) (O : Int) (h0 : 0 ≤ O) (hn : 1 ≤ buf.length)
    (hO : O + buf.length < 17592186044416) :
    ∃ rets d, reissue kms (buf.length / 128 + 2) 0 datap buf O =
        some (rets, O + buf.length, d) ∧
      rets.length ≤ buf.length / 128 + 2 ∧ (∀ r ∈ rets, (1 : Int) ≤ r) ∧
      ∀ k, k < buf.length →
        byte_at d ((O.toNat + k) / 4096) ((O.toNat + k) % 4096 / 128) ((O.toNat + k) % 128) =
          buf[k]? := by
  obtain ⟨o, rfl⟩ : ∃ o : Nat, O = (o : Int) := ⟨O.toNat, by omega⟩
  obtain ⟨rets, d, hre, hcount, hpos, _, _, hbytes, _⟩ :=
    reissue_spec kms hk (buf.length / 128 + 2) 0 datap buf o hwf hn (by omega) (by omega)
  refine ⟨rets, d, ?_, by omega, hpos, ?_⟩
  · rw [hre]; simp
  · intro k hk2
    simpa [byte_at_offset] using hbytes k hk2

/-- C19, witness: on the empty device three bytes written at offset 126 take two
calls, which return 2 and 1, and leave the offset at 129. -/
theorem C19_reissued_writes_store_buffer_witness :
    (0 : Int) ≤ 126 ∧ 1 ≤ [(65 : Byte), 66, 67].length ∧
    ∃ rets d, reissue (fun _ => kmalloc_fill 0) ([(65 : Byte), 66, 67].length / 128 + 2) 0 []
        [(65 : Byte), 66, 67] 126 =
          some (rets, (126 : Int) + (([(65 : Byte), 66, 67].length : Nat) : Int), d) ∧
      rets.length ≤ [(65 : Byte), 66, 67].length / 128 + 2 ∧ (∀ r ∈ rets, (1 : Int) ≤ r) ∧
      ∀ k, k < [(65 : Byte), 66, 67].length →
        byte_at d (((126 : Int).toNat + k) / 4096) (((126 : Int).toNat + k) % 4096 / 128)
          (((126 : Int).toNat + k) % 128) = [(65 : Byte), 66, 67][k]? :=
  ⟨by decide, by decide,
    C19_reissued_writes_store_buffer (fun _ => kmalloc_fill 0) (fun _ _ => rfl) []
      (by intro p hp; simp at hp) [65, 66, 67] 126 (by decide) (by decide) (by decide)⟩

/-! ## Traces and the guard -/

theorem quiet_cons (e : Event) (t : List Event) :
    quiet (e :: t) ↔ e.is_quiet = true ∧ quiet t := by
  unfold quiet
  simp only [List.mem_cons, forall_eq_or_imp]

theorem guard_run_append (s t : List Event) :
    ∀ b, guard_run b (s ++ t) = guard_run (guard_run b s) t := by
  induction s with
  | nil => intro b; rfl
  | cons e s ih =>
    intro b
    simp only [List.cons_append, guard_run]
    exact ih _

theorem guard_run_quiet (t : List Event) (h : quiet t) : ∀ b, guard_run b t = b := by
  induction t with
  | nil => intro b; rfl
  | cons e t ih =>
    intro b
    rw [quiet_cons] at h
    obtain ⟨he, ht⟩ := h
    cases e <;> simp [Event.is_quiet] at he <;> simp [guard_run, ih ht]

theorem count_quiet (t : List Event) (h : quiet t) :
    t.count Event.mutex_lock = 0 ∧ t.count Event.mutex_unlock = 0 ∧ Event.ret ∉ t := by
  refine ⟨?_, ?_, ?_⟩
  · rw [List.count_eq_zero]
    intro hm
    have := h _ hm
    simp [Event.is_quiet] at this
  · rw [List.count_eq_zero]
    intro hm
    have := h _ hm
    simp [Event.is_quiet] at this
  · intro hm
    have := h _ hm
    simp [Event.is_quiet] at this

/-- A trace that never touches the guard keeps the discipline. -/
theorem guard_ok_unlocked (body : List Event) (hb : quiet body) :
    guard_ok (body ++ [Event.ret]) := by
  obtain ⟨h1, h2, _⟩ := count_quiet body hb
  unfold guard_ok
  simp [List.count_append, List.count_cons, h1, h2, guard_run_append,
    guard_run_quiet body hb, guard_run]

theorem mem_repeat_events (es : List Event) (e : Event) :
    ∀ k, e ∈ repeat_events k es → e ∈ es := by
  intro k
  induction k with
  | zero => intro h; simp [repeat_events] at h
  | succ n ih =>
    intro h
    rw [repeat_events, List.mem_append] at h
    rcases h with h | h
    · exact h
    · exact ih h

theorem mem_read_loop_trace (q : List Byte) (e : Event) :
    ∀ (rem idx : Nat), e ∈ read_loop_trace q rem idx → e = Event.load_page := by
  intro rem
  induction rem with
  | zero => intro idx h; simp [read_loop_trace] at h
  | succ n ih =>
    intro idx h
    rw [read_loop_trace] at h
    split at h
    · simp only [List.mem_append, List.mem_cons, List.mem_singleton, List.not_mem_nil,
        or_false] at h
      rcases h with (h | h) | h
      · exact h
      · exact h
      · exact ih _ h
    · simpa using h

/-- C15: for every chain, every offset and every count, no access that read makes
stores to the head pointer or to a page, allocates or frees: read only loads
from the chain, whether it returns bytes or returns 0. -/
theorem C15_read_leaves_store (datap : List scull_page) (count : Nat) (ppos : Int) :
    ∀ e ∈ scull_read_trace datap count ppos,
      e ≠ Event.store_datap ∧ e ≠ Event.store_page ∧ e ≠ Event.kmalloc ∧ e ≠ Event.kfree := by
  intro e he
  unfold scull_read_trace at he
  simp only at he
  rcases List.mem_append.mp he with h1 | hM
  · rcases List.mem_append.mp h1 with h2 | hD
    · simp only [List.mem_append, List.mem_cons, List.mem_singleton, List.not_mem_nil,
        or_false] at h2
      rcases h2 with ((h | h | h) | h) | h <;> subst h <;> decide
    · have := mem_repeat_events _ _ _ hD
      simp only [List.mem_singleton] at this
      subst this; decide
  · cases hw : read_walk 0 (pagenum_of ppos) datap with
    | nil =>
      rw [hw] at hM
      simp only [List.mem_cons, List.mem_singleton, List.not_mem_nil, or_false] at hM
      rcases hM with h | h <;> subst h <;> decide
    | cons p ps =>
      rw [hw] at hM
      simp only at hM
      rcases List.mem_append.mp hM with h1 | h2
      · rcases List.mem_append.mp h1 with h3 | h4
        · rcases List.mem_append.mp h3 with h5 | h6
          · simp only [List.mem_cons, List.mem_singleton, List.not_mem_nil, or_false] at h5
            rcases h5 with h | h <;> subst h <;> decide
          · have := mem_read_loop_trace _ _ _ _ h6
            subst this; decide
        · simp only [List.mem_cons, List.mem_singleton, List.not_mem_nil, or_false] at h4
          rcases h4 with h | h <;> subst h <;> decide
      · simp only [List.mem_cons, List.mem_singleton, List.not_mem_nil, or_false] at h2
        rcases h2 with h | h <;> subst h <;> decide

/-- C18, at the failing inputs: in the trace of a read the head pointer is fetched
(and the cursor read) before the guard is taken; a seek relative to the current
position reads the cursor before taking the guard and once more after releasing
it; a write takes the guard before it fetches the head pointer. -/
theorem C18_accesses_outside_guard :
    (scull_read_trace [page_A] 1 0).take 5 =
      [Event.load_ppos, Event.load_ppos, Event.load_ppos, Event.load_datap,
        Event.mutex_lock] ∧
    scull_llseek_trace 100 5 1 =
      [Event.load_ppos, Event.mutex_lock, Event.store_ppos, Event.mutex_unlock,
        Event.load_ppos, Event.ret] ∧
    (scull_write_trace (kmalloc_fill 0) [page_A] 0).take 5 =
      [Event.load_ppos, Event.load_ppos, Event.load_ppos, Event.mutex_lock,
        Event.load_datap] :=
  ⟨rfl, by decide, rfl⟩

/-- Every chain that a returning write hands back with a valid head pointer is
made of fully built pages when the chain before was: pages other than the head
are linked only once all their quanta exist. -/
theorem scull_write_well_formed (km : Kmalloc) (datap : List scull_page)
    (buf : List Byte) (O ret pos : Int) (d : List scull_page) (hwf : well_formed datap)
    (h0 : 0 ≤ O) (hw : scull_write km datap buf O = .returned ret pos d) :
    well_formed d := by
  obtain ⟨news, hshape, hcase⟩ := scull_write_returned km datap buf O ret pos d hw
  have hall := page_shape_of_mem datap news hwf hshape
  rcases hcase with ⟨_, _, hd⟩ | ⟨hlt, _, _, hd⟩
  · rw [hd]; exact hall
  · rw [hd]
    intro x hx
    rcases List.mem_or_eq_of_mem_set hx with h | h
    · exact hall x h
    · rw [h]
      have hroom := room_of_nonneg O h0
      have hqi := qidx_of_nonneg O h0
      apply copy_from_user_shape
      · rw [List.getD_eq_getElem _ _ hlt]
        exact hall _ (List.getElem_mem hlt)
      · rw [List.length_take, hroom, hqi]
        unfold SCULL_QUANTUM_LEN SCULL_PAGE_SIZE SCULL_QSET_LEN
        omega

/-- C15, witness: the read of one byte at offset 0 of the one-page chain loads a
page, and that access is no store to the chain, no allocation and no free. -/
theorem C15_read_leaves_store_witness :
    Event.load_page ∈ scull_read_trace [page_A] 1 0 ∧
    (Event.load_page ≠ Event.store_datap ∧ Event.load_page ≠ Event.store_page ∧
      Event.load_page ≠ Event.kmalloc ∧ Event.load_page ≠ Event.kfree) :=
  ⟨by decide, C15_read_leaves_store [page_A] 1 0 Event.load_page (by decide)⟩


set_option maxRecDepth 4096 in
/-- C12, at the failing input: on the chain of the one page whose first byte is 65,
a write of the byte 66 at offset 17592186044416 (2^44) returns 1. The
coordinates of that offset are page 4294967296, quantum 0, index 0, and the
chain has no such page either before or after the call; the byte that changes
is index 0 of quantum 0 of page 0, a page that existed before the call and is
not the page of the offset. -/
theorem C12_write_changes_other_page :
    ∃ d, scull_write (kmalloc_fill 0) [page_A] [66] 17592186044416 =
        .returned 1 17592186044417 d ∧
      (17592186044416 : Int) / 4096 = 4294967296 ∧
      (17592186044416 : Int) % 4096 / 128 = 0 ∧ (17592186044416 : Int) % 4096 % 128 = 0 ∧
      [page_A].length = 1 ∧ d.length = 1 ∧
      byte_at [page_A] 0 0 0 = some 65 ∧ byte_at d 0 0 0 = some 66 :=
  ⟨_, rfl, by decide, by decide, by decide, rfl, rfl, rfl, rfl⟩


end Scull
